import Mathlib

/-!
Verification development for the yao-craft artifact-normalization pipeline.

The TypeScript sources (src/sui.ts and the sandbox file-reading module) are
embedded shallowly: strings are modelled as `List Char`, the JavaScript regex
scans of `sui.ts` are implemented as deterministic character scanners that
realize the exact leftmost-match / greedy / lazy semantics of the concrete
patterns used by the code, and the external collaborators (sandbox execution
environment, page-storage service) are modelled as explicit parameters or a
small state machine.
-/

namespace YaoCraft

/-- JavaScript whitespace class, ASCII fragment: the characters matched by
the regex class used in sui.ts and by String.prototype.trim (the Unicode
space characters are not modelled; none of the code's literals produce
them). -/
def isWs (c : Char) : Bool :=
  c = ' ' || c = '\t' || c = '\n' || c = '\r' || c = '\x0b' || c = '\x0c'

/-- Case-insensitive character equality, as used by the regex flag i. -/
def ciEq (a b : Char) : Bool := a.toLower == b.toLower

/-- Exact list-prefix test. -/
def startsWithL : List Char → List Char → Bool
  | [], _ => true
  | _ :: _, [] => false
  | p :: ps, c :: cs => p == c && startsWithL ps cs

/-- Case-insensitive list-prefix test. -/
def startsWithCI : List Char → List Char → Bool
  | [], _ => true
  | _ :: _, [] => false
  | p :: ps, c :: cs => ciEq p c && startsWithCI ps cs

/-- Exact substring test. -/
def hasSub (p : List Char) : List Char → Bool
  | [] => startsWithL p []
  | c :: cs => startsWithL p (c :: cs) || hasSub p cs

/-- Case-insensitive substring test. -/
def hasSubCI (p : List Char) : List Char → Bool
  | [] => startsWithCI p []
  | c :: cs => startsWithCI p (c :: cs) || hasSubCI p cs

/-- Array.prototype.join with a newline separator. -/
def joinNL : List (List Char) → List Char
  | [] => []
  | [x] => x
  | x :: y :: xs => x ++ '\n' :: joinNL (y :: xs)

/-- String.prototype.trim on the character-list model. -/
def jsTrim (l : List Char) : List Char :=
  ((l.dropWhile isWs).reverse.dropWhile isWs).reverse

/-- A character list containing no character case-equal to the tag-opening
bracket; a scan for a block delimiter finds nothing inside such a segment. -/
def noLt (l : List Char) : Prop := ∀ c ∈ l, ciEq '<' c = false

/-- A character list containing no closing angle bracket, usable as the
attribute region of a tag. -/
def noGt (l : List Char) : Prop := ∀ c ∈ l, c ≠ '>'

instance (l : List Char) : Decidable (noLt l) := by unfold noLt; infer_instance

instance (l : List Char) : Decidable (noGt l) := by unfold noGt; infer_instance

/-- Greedy scan realizing a regex fragment reading the remaining attribute
characters up to and including the next closing bracket: returns the consumed
text (ending in the bracket) and the remainder, or fails when no closing
bracket follows. -/
def gtSplit : List Char → Option (List Char × List Char)
  | [] => none
  | c :: cs =>
    if c = '>' then some ([c], cs)
    else
      match gtSplit cs with
      | some (t, r) => some (c :: t, r)
      | none => none

/-- Lazy scan realizing the non-greedy regex fragment that consumes as little
content as possible before a literal (case-insensitively matched) closing
delimiter: returns the content, the closing delimiter as written in the
source, and the remainder past it. -/
def closerSplit (closer : List Char) : List Char → Option (List Char × List Char × List Char)
  | [] => none
  | c :: cs =>
    if startsWithCI closer (c :: cs) then
      some ([], (c :: cs).take closer.length, (c :: cs).drop closer.length)
    else
      match closerSplit closer cs with
      | some (a, ct, r) => some (c :: a, ct, r)
      | none => none

/-- The regex fragment that matches an opening tag with arbitrary attribute
text: the literal bracket-plus-name, then any run of characters other than
the closing bracket, then the closing bracket.  Returns the matched text (as
written, case preserved) and the remainder. -/
def matchOpen (tag : List Char) (l : List Char) : Option (List Char × List Char) :=
  if startsWithCI ('<' :: tag) l then
    match gtSplit (l.drop (tag.length + 1)) with
    | some (t, r) => some (l.take (tag.length + 1) ++ t, r)
    | none => none
  else none

/-- The full lazy block pattern of sui.ts — opening tag with attributes, the
shortest inner text, then the literal closing tag — case-insensitively, as in
the code's global block regexes.  Returns the whole matched text, the inner
text (the regex group), and the remainder. -/
def matchBlockParts (tag : List Char) (l : List Char) :
    Option (List Char × List Char × List Char) :=
  match matchOpen tag l with
  | none => none
  | some (op, r1) =>
    match closerSplit ('<' :: '/' :: (tag ++ ['>'])) r1 with
    | none => none
    | some (content, ct, rest) => some (op ++ content ++ ct, content, rest)

/-- One token of the tag-stripping regex of extractFromSingleFile: a bracket,
an optional slash, the tag name (case-insensitive), attribute characters, and
the closing bracket.  Returns the remainder past the token. -/
def matchTagTok (tag : List Char) (l : List Char) : Option (List Char) :=
  match l with
  | '<' :: l1 =>
    let l2 := match l1 with
      | '/' :: t => t
      | _ => l1
    if startsWithCI tag l2 then
      match gtSplit (l2.drop tag.length) with
      | some (_, r) => some r
      | none => none
    else none
  | _ => none

/-- Fuel-indexed scanner for the global block regex: try a block match at the
current position; on success record the whole matched text and resume after
it, otherwise advance one character — the leftmost-match loop of a global
regex.  The fuel only makes the recursion structural; the wrapper below
always supplies enough. -/
def findBlocksF (tag : List Char) : Nat → List Char → List (List Char)
  | 0, _ => []
  | f + 1, l =>
    match matchBlockParts tag l with
    | some (m, _, r) => m :: findBlocksF tag f r
    | none =>
      match l with
      | [] => []
      | _ :: cs => findBlocksF tag f cs

/-- All matches of the global block regex for the given tag, in source
order — the html.match call of extractFromSingleFile. -/
def findBlocks (tag : List Char) (l : List Char) : List (List Char) :=
  findBlocksF tag (l.length + 1) l

/-- Fuel-indexed scanner for String.prototype.replace with a global block
regex and empty replacement: matched blocks are dropped, other characters
kept. -/
def removeBlocksF (tag : List Char) : Nat → List Char → List Char
  | 0, l => l
  | f + 1, l =>
    match matchBlockParts tag l with
    | some (_, _, r) => removeBlocksF tag f r
    | none =>
      match l with
      | [] => []
      | c :: cs => c :: removeBlocksF tag f cs

/-- Result of removing every match of the global block regex for the given
tag — the replace calls of extractBodyContent. -/
def removeBlocks (tag : List Char) (l : List Char) : List Char :=
  removeBlocksF tag (l.length + 1) l

/-- Fuel-indexed scanner for the inner tag-stripping replace of
extractFromSingleFile. -/
def stripTagsF (tag : List Char) : Nat → List Char → List Char
  | 0, l => l
  | f + 1, l =>
    match matchTagTok tag l with
    | some r => stripTagsF tag f r
    | none =>
      match l with
      | [] => []
      | c :: cs => c :: stripTagsF tag f cs

/-- Result of deleting every opening or closing tag token for the given tag
name — the map-and-replace step applied to each matched block text. -/
def stripTags (tag : List Char) (l : List Char) : List Char :=
  stripTagsF tag (l.length + 1) l

/-- Leftmost (non-global) match of the block regex, returning the capture
group — the html.match calls of extractBodyContent and extractFontImports,
which use the first match's inner text. -/
def findFirstContent (tag : List Char) : List Char → Option (List Char)
  | [] => none
  | c :: cs =>
    match matchBlockParts tag (c :: cs) with
    | some (_, content, _) => some content
    | none => findFirstContent tag cs

def styleTag : List Char := "style".data

def scriptTag : List Char := "script".data

def bodyTag : List Char := "body".data

def headTag : List Char := "head".data

/-- Embedding of extractFromSingleFile (sui.ts, lines 175-196): collect every
style block and every script block with the global case-insensitive block
regexes, strip the tag tokens from each matched text, and join each kind with
newlines; a kind with no match keeps the empty string. -/
def extractFromSingleFile (html : List Char) : List Char × List Char :=
  let styleMatch := findBlocks styleTag html
  let css := if styleMatch.isEmpty then [] else joinNL (styleMatch.map (stripTags styleTag))
  let scriptMatch := findBlocks scriptTag html
  let js := if scriptMatch.isEmpty then [] else joinNL (scriptMatch.map (stripTags scriptTag))
  (css, js)

/-- Embedding of extractBodyContent (sui.ts, lines 225-235): take the first
body block's inner text, defaulting to the whole document, remove every
complete style block and then every complete script block, and trim. -/
def extractBodyContent (html : List Char) : List Char :=
  let content := (findFirstContent bodyTag html).getD html
  jsTrim (removeBlocks scriptTag (removeBlocks styleTag content))

/-- The two quote characters accepted by the link regex around an attribute
value. -/
def isQuote (c : Char) : Bool := c = '"' || c = '\''

/-- The web-font provider host literal of the link regex. -/
def hostPat : List Char := "fonts.googleapis.com".data

def hrefPat : List Char := "href=".data

def linkPat : List Char := '<' :: "link".data

/-- Scan for an occurrence of the host literal (case-insensitively) with at
least one character following it, anywhere in the list. -/
def hostTailScan : List Char → Bool
  | [] => false
  | c :: cs =>
    (startsWithCI hostPat (c :: cs) && decide (hostPat.length < (c :: cs).length))
      || hostTailScan cs

/-- The capture group of the link regex demands at least one non-quote
character, then the host literal, then at least one more non-quote character;
on the maximal quote-free run this reduces to an inner occurrence of the host
literal with a character on each side. -/
def hostMargin (r : List Char) : Bool :=
  match r with
  | [] => false
  | _ :: cs => hostTailScan cs

/-- The part of the link regex after the href marker: an opening quote, the
capture group (the maximal quote-free run, constrained by hostMargin), a
closing quote, then attribute characters up to the closing bracket.  Returns
the captured group and the remainder past the whole match. -/
def matchAfterHref (l : List Char) : Option (List Char × List Char) :=
  match l with
  | [] => none
  | q :: l1 =>
    if isQuote q then
      let r := l1.takeWhile (fun c => !(isQuote c))
      match l1.drop r.length with
      | [] => none
      | _ :: l3 =>
        if hostMargin r then
          match gtSplit l3 with
          | some (_, rest) => some (r, rest)
          | none => none
        else none
    else none

/-- Backtracking over the candidate href-marker positions, tried from the
longest attribute run to the shortest, exactly as the greedy prefix of the
link regex backtracks. -/
def tryCands (rest : List Char) : List Nat → Option (List Char × List Char)
  | [] => none
  | p :: ps =>
    match matchAfterHref (rest.drop (p + 5)) with
    | some gr => some gr
    | none => tryCands rest ps

/-- The candidate positions for the href marker: every offset of at least one
character into the non-bracket run after the link opener at which the marker
matches case-insensitively, in decreasing order. -/
def hrefCands (rest : List Char) (slen : Nat) : List Nat :=
  (((List.range (slen + 1)).filter
    (fun p => decide (1 ≤ p) && startsWithCI hrefPat (rest.drop p)))).reverse

/-- One attempted match of the full link regex at the current position. -/
def matchLinkAt (l : List Char) : Option (List Char × List Char) :=
  if startsWithCI linkPat l then
    let rest := l.drop 5
    let s := rest.takeWhile (fun c => !(c == '>'))
    tryCands rest (hrefCands rest s.length)
  else none

/-- Fuel-indexed global scan of the link regex — the exec loop of
extractFontImports: leftmost match, capture the href group, resume past the
match. -/
def findLinksF : Nat → List Char → List (List Char)
  | 0, _ => []
  | f + 1, l =>
    match matchLinkAt l with
    | some (g, r) => g :: findLinksF f r
    | none =>
      match l with
      | [] => []
      | _ :: cs => findLinksF f cs

/-- All captured href groups of the link regex, in order of appearance. -/
def findLinks (l : List Char) : List (List Char) :=
  findLinksF (l.length + 1) l

/-- The import directive built for one captured href. -/
def mkImport (href : List Char) : List Char :=
  "@import url(".data ++ '\'' :: (href ++ '\'' :: ')' :: ';' :: [])

/-- Embedding of extractFontImports (sui.ts, lines 202-220): the head block's
inner text is located first and the link scan runs only inside it; a missing
head yields the empty string; each captured href becomes one import
directive, and the directives are joined with newlines. -/
def extractFontImports (html : List Char) : List Char :=
  match findFirstContent headTag html with
  | none => []
  | some headContent => joinNL ((findLinks headContent).map mkImport)

/-- The captured hrefs feeding extractFontImports, for stating properties. -/
def fontHrefs (html : List Char) : List (List Char) :=
  match findFirstContent headTag html with
  | none => []
  | some headContent => findLinks headContent

def fnKw : List Char := "function".data

def initName : List Char := "init".data

def mainName : List Char := "main".data

/-- The opening brace expected after the parentheses of the definition
pattern, with optional whitespace before it. -/
def braceAt (r2 : List Char) : Bool :=
  match r2.dropWhile isWs with
  | '\x7b' :: _ => true
  | _ => false

/-- The closing parenthesis of the definition pattern, with optional
whitespace before it, then the brace. -/
def closeThen (r : List Char) : Bool :=
  match r.dropWhile isWs with
  | ')' :: r2 => braceAt r2
  | _ => false

/-- The tail of the wrapped-function pattern after the name: optional
whitespace, open parenthesis, optional whitespace, close parenthesis,
optional whitespace, open brace. -/
def parenPart (l : List Char) : Bool :=
  match l.dropWhile isWs with
  | '(' :: r => closeThen r
  | _ => false

/-- The name alternation of the wrapped-function pattern followed by the
parenthesis-and-brace tail. -/
def nameThen (l : List Char) : Bool :=
  (startsWithL initName l && parenPart (l.drop 4)) ||
    (startsWithL mainName l && parenPart (l.drop 4))

/-- Prefix match of the function-definition pattern of isAlreadyWrapped: the
keyword, mandatory whitespace, the name init or main, then parentheses and
the opening brace, with optional whitespace between the fixed tokens.  The
scan is deterministic because each greedy whitespace run is followed by a
non-whitespace token. -/
def fnPat (l : List Char) : Bool :=
  startsWithL fnKw l &&
    (match l.drop 8 with
     | [] => false
     | c :: cs => isWs c && nameThen ((c :: cs).dropWhile isWs))

/-- State machine realizing the junk prefix of the definition regex — any mix
of whitespace and full comment lines — followed by the function pattern.  The
first state argument tells whether the scan is inside a comment line.  At
each position outside a comment the function pattern is attempted first; this
matches the regex's backtracking because the pattern starts with a letter
while the junk alternatives start with whitespace or a slash. -/
def junkFSM : Bool → List Char → Bool
  | false, [] => fnPat []
  | false, c :: cs =>
    fnPat (c :: cs) ||
      (if isWs c then junkFSM false cs
       else if c = '/' then
         match cs with
         | '/' :: cs2 => junkFSM true cs2
         | _ => false
       else false)
  | true, [] => false
  | true, c :: cs => if c = '\n' then junkFSM false cs else junkFSM true cs

/-- Scan for the later line-start anchors of the multiline regex: the
definition pattern may begin right after any newline. -/
def seekNl : List Char → Bool
  | [] => false
  | c :: cs => if c = '\n' then junkFSM false cs || seekNl cs else seekNl cs

/-- The first regex test of isAlreadyWrapped: thanks to the multiline flag,
the anchor matches at the start of the text and after every newline. -/
def hasInitFunction (t : List Char) : Bool :=
  junkFSM false t || seekNl t

/-- The optional semicolon of the call pattern, consumed from the end. -/
def afterSemi (r : List Char) : List Char :=
  match r with
  | ';' :: x => x
  | _ => r

/-- The reversed tail of the call pattern after the closing parenthesis:
whitespace, the opening parenthesis, whitespace, then the reversed name. -/
def parenTail (x : List Char) : Bool :=
  match x.dropWhile isWs with
  | '(' :: y =>
    startsWithL initName.reverse (y.dropWhile isWs)
      || startsWithL mainName.reverse (y.dropWhile isWs)
  | _ => false

/-- The closing parenthesis of the call pattern, seen from the end. -/
def closeParen (r : List Char) : Bool :=
  match r with
  | ')' :: x => parenTail x
  | _ => false

/-- The second regex test of isAlreadyWrapped, matched from the end of the
text backwards: trailing whitespace, an optional semicolon, whitespace, the
parentheses, whitespace, and the reversed name init or main.  The characters
before the name are unconstrained, exactly as in the unanchored pattern. -/
def endsWithCall (t : List Char) : Bool :=
  closeParen ((afterSemi (t.reverse.dropWhile isWs)).dropWhile isWs)

/-- Embedding of isAlreadyWrapped (sui.ts, lines 142-152): both regex tests
on the trimmed input. -/
def isAlreadyWrapped (js : List Char) : Bool :=
  hasInitFunction (jsTrim js) && endsWithCall (jsTrim js)

def wrapHeader : List Char := "function init() \x7b\n".data

def wrapFooter : List Char := "\n\x7d\n\ninit();".data

/-- Embedding of wrapJsForSui (sui.ts, lines 160-168): return the input
unchanged when it is already wrapped, otherwise wrap it in a function named
init followed by a call. -/
def wrapJsForSui (js : List Char) : List Char :=
  if isAlreadyWrapped js then js
  else wrapHeader ++ js ++ wrapFooter

/-- The GameFiles interface of sui.ts. -/
structure GameFiles where
  html : List Char
  css : List Char
  js : List Char
deriving DecidableEq

/-- The source payload handed to the page-storage collaborator by
createGamePage: per-kind source text, the title setting, and the four
persist flags. -/
structure SuiPageSource where
  uid : List Char
  pageSource : List Char
  styleSource : List Char
  scriptSource : List Char
  title : List Char
  savePage : Bool
  saveStyle : Bool
  saveScript : Bool
  saveSetting : Bool
deriving DecidableEq

/-- The PageResult interface of sui.ts. -/
structure PageResult where
  success : Bool
  route : List Char
  url : List Char
  error : Option (List Char)
deriving DecidableEq

def pageRouteOf (chatId : List Char) : List Char := "/ai/".data ++ chatId

/-- The pure part of createGamePage (sui.ts, lines 38-85): body extraction,
inline extraction, font imports, the fallback selection for css and js with
the empty string treated as absent, the unconditional font-import prefix on
a nonempty import list, and the deferred-initialization wrap. -/
def buildSource (chatId : List Char) (gameFiles : GameFiles)
    (title : Option (List Char)) : SuiPageSource :=
  let bodyContent := extractBodyContent gameFiles.html
  let extracted := extractFromSingleFile gameFiles.html
  let fontImports := extractFontImports gameFiles.html
  let finalCss0 := if gameFiles.css.isEmpty then extracted.1 else gameFiles.css
  let finalCss := if fontImports.isEmpty then finalCss0
    else fontImports ++ "\n\n".data ++ finalCss0
  let rawJs := if gameFiles.js.isEmpty then extracted.2 else gameFiles.js
  let finalJs := wrapJsForSui rawJs
  { uid := chatId, pageSource := bodyContent, styleSource := finalCss,
    scriptSource := finalJs, title := title.getD "Game".data,
    savePage := true, saveStyle := true, saveScript := true, saveSetting := true }

/-- Embedding of createGamePage (sui.ts, lines 27-107).  The page-storage
collaborator is passed in as a fallible save operation receiving the
application id, the template id, the route and the payload; a thrown failure
is caught and reported as a non-succeeded result carrying the message. -/
def createGamePage
    (save : List Char → List Char → List Char → SuiPageSource → Except (List Char) Unit)
    (chatId : List Char) (gameFiles : GameFiles) (title : Option (List Char)) :
    PageResult :=
  let pageRoute := pageRouteOf chatId
  let source := buildSource chatId gameFiles title
  match save "web".data "default".data pageRoute source with
  | Except.ok _ => { success := true, route := pageRoute, url := pageRoute, error := none }
  | Except.error msg =>
    { success := false, route := pageRoute, url := pageRoute, error := some msg }

/-- Modelled from the spec: the state of the execution-environment
collaborator (spec section 6), which is outside this repository.  It stores
the workspace files, the directories created so far, the entries the archive
would extract, whether the archive-extraction command fails, and the paths
whose read throws a fault (the interface allows reads to fail; a missing
file reads back as the absent marker). -/
structure SBState where
  files : List (String × String)
  dirs : List String
  zipEntries : List (String × String)
  unzipFails : Bool
  badReads : List String
deriving DecidableEq

def lookupFile (s : SBState) (p : String) : Option String :=
  (s.files.find? (fun e => e.1 == p)).map (fun e => e.2)

/-- Modelled from the spec: the readFile primitive of the execution
environment — content or absent on success, a thrown fault for paths in the
fault set. -/
def sbReadFile (s : SBState) (p : String) : Except String (Option String) :=
  if p ∈ s.badReads then Except.error "read failed" else Except.ok (lookupFile s p)

def extractDir : String := "game_extracted"

/-- Modelled from the spec: the exec primitive of the execution environment
for the four commands issued by the archive reader.  Creating a directory
records it; the archive-extraction command deposits the archive entries
under the target directory or throws when it fails or the archive is
missing; listing succeeds; recursive removal drops the directory and the
files below it. -/
def sbExec (s : SBState) (argv : List String) : Except String String × SBState :=
  match argv with
  | ["mkdir", "-p", d] =>
    (Except.ok "", { s with dirs := if d ∈ s.dirs then s.dirs else d :: s.dirs })
  | ["unzip", "-o", z, "-d", d] =>
    if s.unzipFails || (lookupFile s z).isNone then (Except.error "unzip failed", s)
    else (Except.ok "",
      { s with files := s.files ++ s.zipEntries.map (fun e => (d ++ "/" ++ e.1, e.2)) })
  | ["ls", "-la", _] => (Except.ok "listing", s)
  | ["rm", "-rf", d] =>
    (Except.ok "", { s with
      dirs := s.dirs.filter (fun x => !(x == d)),
      files := s.files.filter (fun e => !(startsWithL (d ++ "/").data e.1.data)) })
  | _ => (Except.error "unsupported", s)

/-- The GameFiles value produced by the sandbox readers.  The declared
TypeScript type has three string fields, but readFromZip stores the raw
ReadFile result for the markup without a null check, so the markup field is
modelled as optional. -/
structure RawGameFiles where
  html : Option String
  css : String
  js : String
deriving DecidableEq

/-- Embedding of fileExists (sandbox module, lines 12-19): a read that
throws means absent, otherwise anything except the absent marker counts as
present. -/
def fileExists (s : SBState) (filename : String) : Bool :=
  match sbReadFile s filename with
  | Except.ok c => c.isSome
  | Except.error _ => false

/-- Embedding of safeReadFile (sandbox module, lines 116-122): the content,
with the absent marker and a thrown fault both degrading to the empty
string. -/
def safeReadFile (s : SBState) (path : String) : String :=
  match sbReadFile s path with
  | Except.ok (some c) => c
  | Except.ok none => ""
  | Except.error _ => ""

/-- Embedding of readFromZip (sandbox module, lines 46-90): create the
scratch directory, run the extraction command, list it, read the markup
directly and the siblings safely, remove the scratch directory, and return
the triple; any thrown step lands in the catch, which returns the absent
result with the state as it was at the throw. -/
def readFromZip (s : SBState) : Option RawGameFiles × SBState :=
  match sbExec s ["mkdir", "-p", extractDir] with
  | (Except.error _, s1) => (none, s1)
  | (Except.ok _, s1) =>
    match sbExec s1 ["unzip", "-o", "game.zip", "-d", extractDir] with
    | (Except.error _, s2) => (none, s2)
    | (Except.ok _, s2) =>
      match sbExec s2 ["ls", "-la", extractDir] with
      | (Except.error _, s3) => (none, s3)
      | (Except.ok _, s3) =>
        match sbReadFile s3 (extractDir ++ "/game.html") with
        | Except.error _ => (none, s3)
        | Except.ok html =>
          let css := safeReadFile s3 (extractDir ++ "/game.css")
          let js := safeReadFile s3 (extractDir ++ "/game.js")
          match sbExec s3 ["rm", "-rf", extractDir] with
          | (Except.error _, s4) => (none, s4)
          | (Except.ok _, s4) => (some { html := html, css := css, js := js }, s4)

/-- Embedding of readIndividualFiles (sandbox module, lines 95-111): the
markup read must yield a non-falsy string, the siblings degrade to empty. -/
def readIndividualFiles (s : SBState) : Option RawGameFiles :=
  match sbReadFile s "game.html" with
  | Except.error _ => none
  | Except.ok html =>
    if html.getD "" = "" then none
    else some { html := html, css := safeReadFile s "game.css",
                js := safeReadFile s "game.js" }

/-- Embedding of readGameFiles (sandbox module, lines 25-41): try the
archive first when present, fall back to the individual files, otherwise
report the quiet absent result. -/
def readGameFiles (s : SBState) : Option RawGameFiles × SBState :=
  if fileExists s "game.zip" then
    match readFromZip s with
    | (some files, s1) => (some files, s1)
    | (none, s1) =>
      if fileExists s1 "game.html" then (readIndividualFiles s1, s1) else (none, s1)
  else
    if fileExists s "game.html" then (readIndividualFiles s, s) else (none, s)

/-- A complete tag block as written in a document: opening tag with
attribute text, inner content, closing tag. -/
def tagBlock (tag attrs content : List Char) : List Char :=
  ('<' :: tag) ++ attrs ++ '>' :: (content ++ ('<' :: '/' :: (tag ++ ['>'])))

/-- The literal closing tag the lazy body pattern searches for. -/
def bodyCloser : List Char := '<' :: ('/' :: (bodyTag ++ ['>']))

/-- A document fragment made of markup-free runs and complete style or
script blocks. -/
inductive Seg
  | plain (s : List Char)
  | styleB (attrs content : List Char)
  | scriptB (attrs content : List Char)

def Seg.render : Seg → List Char
  | .plain s => s
  | .styleB a c => tagBlock styleTag a c
  | .scriptB a c => tagBlock scriptTag a c

/-- Well-formedness of a segment: plain runs and block contents stay clear
of the opening bracket, attribute runs stay clear of both brackets. -/
def Seg.ok : Seg → Prop
  | .plain s => noLt s
  | .styleB a c => noGt a ∧ noLt a ∧ noLt c
  | .scriptB a c => noGt a ∧ noLt a ∧ noLt c

def Seg.isStyle : Seg → Bool
  | .styleB _ _ => true
  | _ => false

def Seg.isScript : Seg → Bool
  | .scriptB _ _ => true
  | _ => false

def Seg.inner : Seg → List Char
  | .plain _ => []
  | .styleB _ c => c
  | .scriptB _ c => c

def renderSegs (segs : List Seg) : List Char := (segs.map Seg.render).flatten

instance (g : Seg) : Decidable (Seg.ok g) := by
  cases g <;> (unfold Seg.ok; infer_instance)

/-- A run of whitespace characters. -/
def WsRun (w : List Char) : Prop := ∀ c ∈ w, isWs c = true

/-- The junk language the definition regex admits before the keyword: any
interleaving of whitespace characters and full comment lines. -/
inductive JunkSeq : List Char → Prop
  | nil : JunkSeq []
  | ws {c : Char} {l : List Char} : isWs c = true → JunkSeq l → JunkSeq (c :: l)
  | comment {s l : List Char} : (∀ c ∈ s, c ≠ '\n') → JunkSeq l →
      JunkSeq ('/' :: '/' :: (s ++ '\n' :: l))

/-- Declarative shape of the function-definition pattern at the start of a
text: the keyword, mandatory whitespace, the given name, and the
parenthesis-and-brace tail with optional whitespace, followed by anything. -/
def FnHeadShape (nm l : List Char) : Prop :=
  ∃ w1 w2 w3 w4 rest, WsRun w1 ∧ w1 ≠ [] ∧ WsRun w2 ∧ WsRun w3 ∧ WsRun w4 ∧
    l = fnKw ++ (w1 ++ (nm ++ (w2 ++ '(' :: (w3 ++ ')' :: (w4 ++ '\x7b' :: rest)))))

/-- Declarative content of the first regex test: at the start of the text or
right after some newline, a junk prefix of whitespace and comment lines is
followed by a definition of init or main. -/
def AnchoredFnDef (t : List Char) : Prop :=
  ∃ pre junk l, (pre = [] ∨ ∃ p', pre = p' ++ ['\n']) ∧ JunkSeq junk ∧
    (FnHeadShape initName l ∨ FnHeadShape mainName l) ∧ t = pre ++ (junk ++ l)

/-- Declarative content of the second regex test: the text ends with an
occurrence of init or main (possibly as the tail of a longer identifier —
the prefix is unconstrained), parentheses, an optional semicolon and
whitespace between and after the fixed tokens. -/
def EndsCallShape (t : List Char) : Prop :=
  ∃ pre nm w1 w2 w3 semi w4, (nm = initName ∨ nm = mainName) ∧
    WsRun w1 ∧ WsRun w2 ∧ WsRun w3 ∧ WsRun w4 ∧ (semi = [] ∨ semi = [';']) ∧
    t = pre ++ (nm ++ (w1 ++ '(' :: (w2 ++ ')' :: (w3 ++ (semi ++ w4)))))

/-- Decidable rendering of claim C3's characterization, written from the
claim's words, for comparison with the code's isAlreadyWrapped: a top-level
definition of one fixed name at the start of the trimmed text (only comments
or whitespace before it) together with a call of that same name at the end. -/
def fnPatN (nm : List Char) (l : List Char) : Bool :=
  startsWithL fnKw l &&
    (match l.drop 8 with
     | [] => false
     | c :: cs => isWs c &&
        (startsWithL nm ((c :: cs).dropWhile isWs) &&
          parenPart (((c :: cs).dropWhile isWs).drop nm.length)))

/-- The junk-then-definition scan of claim C3's characterization, anchored
only at the start of the text. -/
def junkFSMN (nm : List Char) : Bool → List Char → Bool
  | false, [] => fnPatN nm []
  | false, c :: cs =>
    fnPatN nm (c :: cs) ||
      (if isWs c then junkFSMN nm false cs
       else if c = '/' then
         match cs with
         | '/' :: cs2 => junkFSMN nm true cs2
         | _ => false
       else false)
  | true, [] => false
  | true, c :: cs => if c = '\n' then junkFSMN nm false cs else junkFSMN nm true cs

/-- The trailing-call test of claim C3's characterization for one fixed
name. -/
def endsCallN (nm : List Char) (t : List Char) : Bool :=
  match (afterSemi (t.reverse.dropWhile isWs)).dropWhile isWs with
  | ')' :: x =>
    (match x.dropWhile isWs with
     | '(' :: y => startsWithL nm.reverse (y.dropWhile isWs)
     | _ => false)
  | _ => false

/-- Claim C3's full characterization, from the claim's words: both
conditions hold for the same name, init or main, on the trimmed input. -/
def claimDeferred (js : List Char) : Bool :=
  (junkFSMN initName false (jsTrim js) && endsCallN initName (jsTrim js))
    || (junkFSMN mainName false (jsTrim js) && endsCallN mainName (jsTrim js))

/-- A sandbox whose archive-extraction command fails. -/
def c1FailState : SBState :=
  { files := [("game.zip", "PK")], dirs := [], zipEntries := [],
    unzipFails := true, badReads := [] }

/-- A sandbox whose archive extracts a single markup entry. -/
def c1OkState : SBState :=
  { files := [("game.zip", "PK")], dirs := [],
    zipEntries := [("game.html", "<div>x</div>")], unzipFails := false,
    badReads := [] }

/-- A sandbox holding only an archive with the artifacts inside it. -/
def zipOnlyState (h c j : String) (hasCss hasJs : Bool) : SBState :=
  { files := [("game.zip", "PK")], dirs := [],
    zipEntries := [("game.html", h)] ++ (if hasCss then [("game.css", c)] else [])
      ++ (if hasJs then [("game.js", j)] else []),
    unzipFails := false, badReads := [] }

/-- A sandbox holding the same artifacts as loose files and no archive. -/
def indOnlyState (h c j : String) (hasCss hasJs : Bool) : SBState :=
  { files := [("game.html", h)] ++ (if hasCss then [("game.css", c)] else [])
      ++ (if hasJs then [("game.js", j)] else []),
    dirs := [], zipEntries := [], unzipFails := false, badReads := [] }

/-- A sandbox with an empty markup file and nothing else. -/
def c10EmptyState : SBState :=
  { files := [("game.html", "")], dirs := [], zipEntries := [],
    unzipFails := false, badReads := [] }

/-- A sandbox with no artifact files at all. -/
def c10BareState : SBState :=
  { files := [], dirs := [], zipEntries := [], unzipFails := false,
    badReads := [] }

/-- A game-files triple with explicit style and script texts. -/
def c4gf1 : GameFiles :=
  { html := "<style>x&b</style>".data, css := "mycss".data, js := "myjs".data }

/-- A game-files triple with markup only. -/
def c4gf2 : GameFiles :=
  { html := "<style>x&b</style>".data, css := [], js := [] }

/-- A game-files triple with markup only, for the save-failure witness. -/
def c8gf : GameFiles :=
  { html := "<div>hi</div>".data, css := [], js := [] }

theorem ciEq_self (a : Char) : ciEq a a = true := by simp [ciEq]

theorem ciEq_lt_eq {c : Char} (h : ciEq '<' c = false) : c ≠ '<' := by
  intro hc; subst hc; simp [ciEq] at h

theorem startsWithCI_append_self (p r : List Char) :
    startsWithCI p (p ++ r) = true := by
  induction p with
  | nil => rfl
  | cons a as ih => simp [startsWithCI, ciEq_self, ih]

theorem startsWithL_append_self (p r : List Char) :
    startsWithL p (p ++ r) = true := by
  induction p with
  | nil => rfl
  | cons a as ih => simp [startsWithL, ih]

theorem startsWithL_iff (p l : List Char) :
    startsWithL p l = true ↔ ∃ r, l = p ++ r := by
  induction p generalizing l with
  | nil => simp [startsWithL]
  | cons a as ih =>
    cases l with
    | nil => simp [startsWithL]
    | cons c cs =>
      simp only [startsWithL, Bool.and_eq_true, beq_iff_eq, ih]
      constructor
      · rintro ⟨rfl, r, rfl⟩; exact ⟨r, rfl⟩
      · rintro ⟨r, h⟩
        cases h
        exact ⟨rfl, r, rfl⟩

theorem startsWithCI_length {p l : List Char} (h : startsWithCI p l = true) :
    p.length ≤ l.length := by
  induction p generalizing l with
  | nil => simp
  | cons a as ih =>
    cases l with
    | nil => simp [startsWithCI] at h
    | cons c cs =>
      simp only [startsWithCI, Bool.and_eq_true] at h
      simpa [List.length_cons] using Nat.succ_le_succ (ih h.2)

theorem gtSplit_length {l t r : List Char} (h : gtSplit l = some (t, r)) :
    r.length < l.length := by
  induction l generalizing t r with
  | nil => simp [gtSplit] at h
  | cons c cs ih =>
    by_cases hc : c = '>'
    · simp [gtSplit, hc] at h
      simp [← h.2]
    · simp only [gtSplit, if_neg hc] at h
      cases hg : gtSplit cs with
      | none => rw [hg] at h; simp at h
      | some tr =>
        obtain ⟨t', r'⟩ := tr
        rw [hg] at h
        simp only [Option.some.injEq, Prod.mk.injEq] at h
        have := ih hg
        rw [← h.2]
        simp only [List.length_cons]
        omega

theorem gtSplit_append {attrs : List Char} (h : noGt attrs) (r : List Char) :
    gtSplit (attrs ++ '>' :: r) = some (attrs ++ ['>'], r) := by
  induction attrs with
  | nil => simp [gtSplit]
  | cons a as ih =>
    have ha : a ≠ '>' := h a (by simp)
    have ih' := ih (fun c hc => h c (by simp [hc]))
    simp [gtSplit, ha, ih']

theorem closerSplit_length {closer l a ct r : List Char} (hc : closer ≠ [])
    (h : closerSplit closer l = some (a, ct, r)) : r.length < l.length := by
  induction l generalizing a ct r with
  | nil => simp [closerSplit] at h
  | cons c cs ih =>
    simp only [closerSplit] at h
    by_cases hs : startsWithCI closer (c :: cs) = true
    · rw [if_pos hs] at h
      simp only [Option.some.injEq, Prod.mk.injEq] at h
      have hlen : 1 ≤ closer.length := by
        cases closer with
        | nil => exact absurd rfl hc
        | cons x xs => simp
      rw [← h.2.2]
      simp only [List.length_drop, List.length_cons]
      omega
    · rw [if_neg hs] at h
      cases hg : closerSplit closer cs with
      | none => rw [hg] at h; simp at h
      | some v =>
        obtain ⟨a', ct', r'⟩ := v
        rw [hg] at h
        simp only [Option.some.injEq, Prod.mk.injEq] at h
        have := ih hg
        rw [← h.2.2]
        simp only [List.length_cons]
        omega

theorem closerSplit_at_self {closer : List Char} (hc : closer ≠ []) (r : List Char) :
    closerSplit closer (closer ++ r) = some ([], closer, r) := by
  cases closer with
  | nil => exact absurd rfl hc
  | cons x xs =>
    have hsw : startsWithCI (x :: xs) ((x :: xs) ++ r) = true :=
      startsWithCI_append_self _ _
    simp only [List.cons_append, closerSplit]
    rw [if_pos (by simpa using hsw)]
    simp [List.take_left, List.drop_left]

theorem closerSplit_cons_of_not {closer : List Char} {c : Char} {cs : List Char}
    (hs : startsWithCI closer (c :: cs) = false) :
    closerSplit closer (c :: cs) =
      (closerSplit closer cs).map (fun v => (c :: v.1, v.2.1, v.2.2)) := by
  simp only [closerSplit]
  rw [if_neg (by simp [hs])]
  cases closerSplit closer cs with
  | none => rfl
  | some v => obtain ⟨a, ct, r⟩ := v; rfl

theorem closerSplit_through {cl' xs r : List Char} (h : noLt xs) :
    closerSplit ('<' :: cl') (xs ++ r) =
      (closerSplit ('<' :: cl') r).map (fun v => (xs ++ v.1, v.2.1, v.2.2)) := by
  induction xs with
  | nil =>
    simp only [List.nil_append]
    cases closerSplit ('<' :: cl') r with
    | none => rfl
    | some v => obtain ⟨a, ct, rr⟩ := v; rfl
  | cons x xs ih =>
    have hx : ciEq '<' x = false := h x (by simp)
    have hsw : startsWithCI ('<' :: cl') (x :: (xs ++ r)) = false := by
      simp [startsWithCI, hx]
    rw [List.cons_append, closerSplit_cons_of_not hsw, ih (fun c hc => h c (by simp [hc]))]
    cases closerSplit ('<' :: cl') r with
    | none => rfl
    | some v => obtain ⟨a, ct, rr⟩ := v; rfl

theorem matchOpen_length {tag l op r : List Char} (h : matchOpen tag l = some (op, r)) :
    r.length < l.length := by
  unfold matchOpen at h
  by_cases hs : startsWithCI ('<' :: tag) l = true
  · rw [if_pos hs] at h
    cases hg : gtSplit (l.drop (tag.length + 1)) with
    | none => rw [hg] at h; simp at h
    | some tr =>
      obtain ⟨t, r'⟩ := tr
      rw [hg] at h
      simp only [Option.some.injEq, Prod.mk.injEq] at h
      have h1 := gtSplit_length hg
      have h2 : (l.drop (tag.length + 1)).length ≤ l.length := by
        simp [List.length_drop]
      rw [← h.2]
      omega
  · rw [if_neg hs] at h; simp at h

theorem matchOpen_none_of_not_sw {tag l : List Char}
    (h : startsWithCI ('<' :: tag) l = false) : matchOpen tag l = none := by
  unfold matchOpen
  rw [if_neg (by simp [h])]

theorem matchOpen_none_of_head {tag : List Char} {c : Char} {cs : List Char}
    (h : ciEq '<' c = false) : matchOpen tag (c :: cs) = none :=
  matchOpen_none_of_not_sw (by simp [startsWithCI, h])

theorem matchOpen_at {tag attrs : List Char} (ha : noGt attrs) (r : List Char) :
    matchOpen tag (('<' :: tag) ++ attrs ++ '>' :: r) =
      some (('<' :: tag) ++ attrs ++ ['>'], r) := by
  unfold matchOpen
  have hsw : startsWithCI ('<' :: tag) (('<' :: tag) ++ attrs ++ '>' :: r) = true := by
    rw [List.append_assoc]; exact startsWithCI_append_self _ _
  rw [if_pos hsw]
  have hlen : ('<' :: tag).length = tag.length + 1 := by simp
  have hdrop : (('<' :: tag) ++ attrs ++ '>' :: r).drop (tag.length + 1) = attrs ++ '>' :: r := by
    rw [List.append_assoc, ← hlen, List.drop_left]
  have htake : (('<' :: tag) ++ attrs ++ '>' :: r).take (tag.length + 1) = '<' :: tag := by
    rw [List.append_assoc, ← hlen, List.take_left]
  rw [hdrop, gtSplit_append ha, htake]
  simp

theorem matchBlockParts_length {tag l m c r : List Char}
    (h : matchBlockParts tag l = some (m, c, r)) : r.length < l.length := by
  unfold matchBlockParts at h
  cases ho : matchOpen tag l with
  | none => simp only [ho] at h; cases h
  | some v =>
    obtain ⟨op, r1⟩ := v
    simp only [ho] at h
    cases hcs : closerSplit ('<' :: '/' :: (tag ++ ['>'])) r1 with
    | none => simp only [hcs] at h; cases h
    | some w =>
      obtain ⟨content, ct, rest⟩ := w
      simp only [hcs, Option.some.injEq, Prod.mk.injEq] at h
      have h1 := matchOpen_length ho
      have h2 := closerSplit_length (by simp) hcs
      rw [← h.2.2]
      omega

theorem matchBlockParts_none_of_not_sw {tag l : List Char}
    (h : startsWithCI ('<' :: tag) l = false) : matchBlockParts tag l = none := by
  unfold matchBlockParts
  rw [matchOpen_none_of_not_sw h]

theorem matchBlockParts_none_of_head {tag : List Char} {c : Char} {cs : List Char}
    (h : ciEq '<' c = false) : matchBlockParts tag (c :: cs) = none := by
  unfold matchBlockParts
  rw [matchOpen_none_of_head h]

theorem matchBlockParts_at {tag attrs content : List Char} (ha : noGt attrs)
    (hc : noLt content) (r : List Char) :
    matchBlockParts tag
        (('<' :: tag) ++ attrs ++ '>' ::
          (content ++ (('<' :: '/' :: (tag ++ ['>'])) ++ r))) =
      some ((('<' :: tag) ++ attrs ++ ['>']) ++ content ++ ('<' :: '/' :: (tag ++ ['>'])),
        content, r) := by
  unfold matchBlockParts
  rw [matchOpen_at ha]
  simp only [@closerSplit_through ('/' :: (tag ++ ['>'])) content
      (('<' :: '/' :: (tag ++ ['>'])) ++ r) hc,
    closerSplit_at_self (by simp : ('<' :: '/' :: (tag ++ ['>'])) ≠ []),
    Option.map_some]
  simp

theorem matchTagTok_length {tag l r : List Char} (h : matchTagTok tag l = some r) :
    r.length < l.length := by
  unfold matchTagTok at h
  split at h
  · rename_i l1
    simp only at h
    set l2 := (match l1 with | '/' :: t => t | _ => l1) with hl2
    have hlen2 : l2.length ≤ l1.length := by
      rw [hl2]
      match l1 with
      | '/' :: t => simp
      | [] => simp
      | c :: t =>
        by_cases hc : c = '/'
        · subst hc; simp
        · rw [show (match c :: t with | '/' :: t => t | _ => c :: t) = c :: t from by
            split
            · rename_i t' heq; injection heq with h1 _; exact absurd h1 hc
            · rfl]
    by_cases hs : startsWithCI tag l2 = true
    · rw [if_pos hs] at h
      cases hg : gtSplit (l2.drop tag.length) with
      | none => simp only [hg] at h; cases h
      | some tr =>
        obtain ⟨t, r'⟩ := tr
        simp only [hg, Option.some.injEq] at h
        have h1 := gtSplit_length hg
        have h2 : (l2.drop tag.length).length ≤ l2.length := by simp [List.length_drop]
        subst h
        simp only [List.length_cons]
        omega
    · rw [if_neg hs] at h; cases h
  · cases h

theorem matchTagTok_none_of_head {tag : List Char} {c : Char} {cs : List Char}
    (h : c ≠ '<') : matchTagTok tag (c :: cs) = none := by
  unfold matchTagTok
  split
  · rename_i l1 heq
    injection heq with h1 _
    exact absurd h1 h
  · rfl

theorem findBlocksF_succ_some {tag l m c r : List Char} {f : Nat}
    (h : matchBlockParts tag l = some (m, c, r)) :
    findBlocksF tag (f + 1) l = m :: findBlocksF tag f r := by
  simp [findBlocksF, h]

theorem findBlocksF_succ_none {tag : List Char} {c : Char} {cs : List Char} {f : Nat}
    (h : matchBlockParts tag (c :: cs) = none) :
    findBlocksF tag (f + 1) (c :: cs) = findBlocksF tag f cs := by
  simp [findBlocksF, h]

theorem findBlocksF_congr (tag : List Char) :
    ∀ f g l, l.length < f → l.length < g → findBlocksF tag f l = findBlocksF tag g l := by
  intro f
  induction f with
  | zero => intro g l hf _; omega
  | succ f ih =>
    intro g l hf hg
    match g, hg with
    | g + 1, hg =>
      cases hm : matchBlockParts tag l with
      | some v =>
        obtain ⟨m, c, r⟩ := v
        have hr := matchBlockParts_length hm
        rw [findBlocksF_succ_some hm, findBlocksF_succ_some hm,
          ih g r (by omega) (by omega)]
      | none =>
        cases l with
        | nil => rfl
        | cons x cs =>
          simp only [List.length_cons] at hf hg
          rw [findBlocksF_succ_none hm, findBlocksF_succ_none hm,
            ih g cs (by omega) (by omega)]

theorem findBlocks_nil (tag : List Char) : findBlocks tag [] = [] := rfl

theorem findBlocks_some {tag l m c r : List Char}
    (h : matchBlockParts tag l = some (m, c, r)) :
    findBlocks tag l = m :: findBlocks tag r := by
  unfold findBlocks
  have hr := matchBlockParts_length h
  rw [findBlocksF_succ_some h,
    findBlocksF_congr tag l.length (r.length + 1) r (by omega) (by omega)]

theorem findBlocks_cons_none {tag : List Char} {c : Char} {cs : List Char}
    (h : matchBlockParts tag (c :: cs) = none) :
    findBlocks tag (c :: cs) = findBlocks tag cs := by
  unfold findBlocks
  rw [show (c :: cs).length + 1 = cs.length + 1 + 1 by simp,
    findBlocksF_succ_none h]

theorem findBlocks_cons_head {tag : List Char} {c : Char} {cs : List Char}
    (h : ciEq '<' c = false) :
    findBlocks tag (c :: cs) = findBlocks tag cs :=
  findBlocks_cons_none (matchBlockParts_none_of_head h)

theorem findBlocks_skip {tag xs : List Char} (h : noLt xs) (r : List Char) :
    findBlocks tag (xs ++ r) = findBlocks tag r := by
  induction xs with
  | nil => simp
  | cons x xs ih =>
    rw [List.cons_append, findBlocks_cons_head (h x (by simp))]
    exact ih (fun c hc => h c (by simp [hc]))

theorem removeBlocksF_succ_some {tag l m c r : List Char} {f : Nat}
    (h : matchBlockParts tag l = some (m, c, r)) :
    removeBlocksF tag (f + 1) l = removeBlocksF tag f r := by
  simp [removeBlocksF, h]

theorem removeBlocksF_succ_none {tag : List Char} {c : Char} {cs : List Char} {f : Nat}
    (h : matchBlockParts tag (c :: cs) = none) :
    removeBlocksF tag (f + 1) (c :: cs) = c :: removeBlocksF tag f cs := by
  simp [removeBlocksF, h]

theorem removeBlocksF_congr (tag : List Char) :
    ∀ f g l, l.length < f → l.length < g → removeBlocksF tag f l = removeBlocksF tag g l := by
  intro f
  induction f with
  | zero => intro g l hf _; omega
  | succ f ih =>
    intro g l hf hg
    match g, hg with
    | g + 1, hg =>
      cases hm : matchBlockParts tag l with
      | some v =>
        obtain ⟨m, c, r⟩ := v
        have hr := matchBlockParts_length hm
        rw [removeBlocksF_succ_some hm, removeBlocksF_succ_some hm,
          ih g r (by omega) (by omega)]
      | none =>
        cases l with
        | nil => rfl
        | cons x cs =>
          simp only [List.length_cons] at hf hg
          rw [removeBlocksF_succ_none hm, removeBlocksF_succ_none hm,
            ih g cs (by omega) (by omega)]

theorem removeBlocks_nil (tag : List Char) : removeBlocks tag [] = [] := rfl

theorem removeBlocks_some {tag l m c r : List Char}
    (h : matchBlockParts tag l = some (m, c, r)) :
    removeBlocks tag l = removeBlocks tag r := by
  unfold removeBlocks
  have hr := matchBlockParts_length h
  rw [removeBlocksF_succ_some h,
    removeBlocksF_congr tag l.length (r.length + 1) r (by omega) (by omega)]

theorem removeBlocks_cons_none {tag : List Char} {c : Char} {cs : List Char}
    (h : matchBlockParts tag (c :: cs) = none) :
    removeBlocks tag (c :: cs) = c :: removeBlocks tag cs := by
  unfold removeBlocks
  rw [show (c :: cs).length + 1 = cs.length + 1 + 1 by simp,
    removeBlocksF_succ_none h]

theorem removeBlocks_cons_head {tag : List Char} {c : Char} {cs : List Char}
    (h : ciEq '<' c = false) :
    removeBlocks tag (c :: cs) = c :: removeBlocks tag cs :=
  removeBlocks_cons_none (matchBlockParts_none_of_head h)

theorem removeBlocks_skip {tag xs : List Char} (h : noLt xs) (r : List Char) :
    removeBlocks tag (xs ++ r) = xs ++ removeBlocks tag r := by
  induction xs with
  | nil => simp
  | cons x xs ih =>
    rw [List.cons_append, removeBlocks_cons_head (h x (by simp)),
      ih (fun c hc => h c (by simp [hc])), List.cons_append]

theorem stripTagsF_succ_some {tag l r : List Char} {f : Nat}
    (h : matchTagTok tag l = some r) :
    stripTagsF tag (f + 1) l = stripTagsF tag f r := by
  simp [stripTagsF, h]

theorem stripTagsF_succ_none {tag : List Char} {c : Char} {cs : List Char} {f : Nat}
    (h : matchTagTok tag (c :: cs) = none) :
    stripTagsF tag (f + 1) (c :: cs) = c :: stripTagsF tag f cs := by
  simp [stripTagsF, h]

theorem stripTagsF_congr (tag : List Char) :
    ∀ f g l, l.length < f → l.length < g → stripTagsF tag f l = stripTagsF tag g l := by
  intro f
  induction f with
  | zero => intro g l hf _; omega
  | succ f ih =>
    intro g l hf hg
    match g, hg with
    | g + 1, hg =>
      cases hm : matchTagTok tag l with
      | some r =>
        have hr := matchTagTok_length hm
        rw [stripTagsF_succ_some hm, stripTagsF_succ_some hm,
          ih g r (by omega) (by omega)]
      | none =>
        cases l with
        | nil => rfl
        | cons x cs =>
          simp only [List.length_cons] at hf hg
          rw [stripTagsF_succ_none hm, stripTagsF_succ_none hm,
            ih g cs (by omega) (by omega)]

theorem stripTags_nil (tag : List Char) : stripTags tag [] = [] := rfl

theorem stripTags_some {tag l r : List Char} (h : matchTagTok tag l = some r) :
    stripTags tag l = stripTags tag r := by
  unfold stripTags
  have hr := matchTagTok_length h
  rw [stripTagsF_succ_some h,
    stripTagsF_congr tag l.length (r.length + 1) r (by omega) (by omega)]

theorem stripTags_cons_none {tag : List Char} {c : Char} {cs : List Char}
    (h : matchTagTok tag (c :: cs) = none) :
    stripTags tag (c :: cs) = c :: stripTags tag cs := by
  unfold stripTags
  rw [show (c :: cs).length + 1 = cs.length + 1 + 1 by simp,
    stripTagsF_succ_none h]

theorem stripTags_cons_head {tag : List Char} {c : Char} {cs : List Char}
    (h : c ≠ '<') : stripTags tag (c :: cs) = c :: stripTags tag cs :=
  stripTags_cons_none (matchTagTok_none_of_head h)

theorem stripTags_skip {tag xs : List Char} (h : noLt xs) (r : List Char) :
    stripTags tag (xs ++ r) = xs ++ stripTags tag r := by
  induction xs with
  | nil => simp
  | cons x xs ih =>
    rw [List.cons_append, stripTags_cons_head (ciEq_lt_eq (h x (by simp))),
      ih (fun c hc => h c (by simp [hc])), List.cons_append]

theorem findFirstContent_cons_some {tag : List Char} {c : Char} {cs m ct r : List Char}
    (h : matchBlockParts tag (c :: cs) = some (m, ct, r)) :
    findFirstContent tag (c :: cs) = some ct := by
  simp [findFirstContent, h]

theorem findFirstContent_cons_none {tag : List Char} {c : Char} {cs : List Char}
    (h : matchBlockParts tag (c :: cs) = none) :
    findFirstContent tag (c :: cs) = findFirstContent tag cs := by
  simp [findFirstContent, h]

theorem findFirstContent_skip {tag xs : List Char} (h : noLt xs) (r : List Char) :
    findFirstContent tag (xs ++ r) = findFirstContent tag r := by
  induction xs with
  | nil => simp
  | cons x xs ih =>
    rw [List.cons_append,
      findFirstContent_cons_none (matchBlockParts_none_of_head (h x (by simp)))]
    exact ih (fun c hc => h c (by simp [hc]))

theorem matchAfterHref_length {l g rr : List Char} (h : matchAfterHref l = some (g, rr)) :
    rr.length < l.length := by
  unfold matchAfterHref at h
  match l, h with
  | q :: l1, h =>
    simp only at h
    by_cases hq : isQuote q = true
    · rw [if_pos hq] at h
      set r := l1.takeWhile (fun c => !(isQuote c)) with hr
      cases hd : l1.drop r.length with
      | nil => simp only [hd] at h; cases h
      | cons q2 l3 =>
        simp only [hd] at h
        by_cases hm : hostMargin r = true
        · rw [if_pos hm] at h
          cases hg : gtSplit l3 with
          | none => simp only [hg] at h; cases h
          | some tr =>
            obtain ⟨t, rest⟩ := tr
            simp only [hg, Option.some.injEq, Prod.mk.injEq] at h
            have h1 := gtSplit_length hg
            have h3 : l3.length < l1.length := by
              have : (l1.drop r.length).length = l1.length - r.length := by
                simp [List.length_drop]
              rw [hd] at this
              simp only [List.length_cons] at this
              omega
            rw [← h.2]
            simp only [List.length_cons]
            omega
        · rw [if_neg hm] at h; cases h
    · rw [if_neg hq] at h; cases h

theorem tryCands_length {rest g rr : List Char} {ps : List Nat}
    (h : tryCands rest ps = some (g, rr)) : rr.length < rest.length := by
  induction ps with
  | nil => simp [tryCands] at h
  | cons p ps ih =>
    unfold tryCands at h
    cases hm : matchAfterHref (rest.drop (p + 5)) with
    | some gr =>
      obtain ⟨g', rr'⟩ := gr
      simp only [hm, Option.some.injEq, Prod.mk.injEq] at h
      have h1 := matchAfterHref_length hm
      have h2 : (rest.drop (p + 5)).length ≤ rest.length := by simp [List.length_drop]
      rw [← h.2]
      omega
    | none =>
      simp only [hm] at h
      exact ih h

theorem matchLinkAt_length {l g rr : List Char} (h : matchLinkAt l = some (g, rr)) :
    rr.length < l.length := by
  unfold matchLinkAt at h
  by_cases hs : startsWithCI linkPat l = true
  · rw [if_pos hs] at h
    simp only at h
    have h1 := tryCands_length h
    have h5 : 5 ≤ l.length := by
      have := startsWithCI_length hs
      simpa [linkPat] using this
    have h2 : (l.drop 5).length = l.length - 5 := by simp [List.length_drop]
    omega
  · rw [if_neg hs] at h; cases h

theorem matchLinkAt_none_of_head {c : Char} {cs : List Char}
    (h : ciEq '<' c = false) : matchLinkAt (c :: cs) = none := by
  unfold matchLinkAt
  rw [if_neg (by simp [linkPat, startsWithCI, h])]

theorem findLinksF_succ_some {l g r : List Char} {f : Nat}
    (h : matchLinkAt l = some (g, r)) :
    findLinksF (f + 1) l = g :: findLinksF f r := by
  simp [findLinksF, h]

theorem findLinksF_succ_none {c : Char} {cs : List Char} {f : Nat}
    (h : matchLinkAt (c :: cs) = none) :
    findLinksF (f + 1) (c :: cs) = findLinksF f cs := by
  simp [findLinksF, h]

theorem findLinksF_congr :
    ∀ f g l, l.length < f → l.length < g → findLinksF f l = findLinksF g l := by
  intro f
  induction f with
  | zero => intro g l hf _; omega
  | succ f ih =>
    intro g l hf hg
    match g, hg with
    | g + 1, hg =>
      cases hm : matchLinkAt l with
      | some v =>
        obtain ⟨gr, r⟩ := v
        have hr := matchLinkAt_length hm
        rw [findLinksF_succ_some hm, findLinksF_succ_some hm,
          ih g r (by omega) (by omega)]
      | none =>
        cases l with
        | nil => rfl
        | cons x cs =>
          simp only [List.length_cons] at hf hg
          rw [findLinksF_succ_none hm, findLinksF_succ_none hm,
            ih g cs (by omega) (by omega)]

theorem findLinks_nil : findLinks [] = [] := rfl

theorem findLinks_some {l g r : List Char} (h : matchLinkAt l = some (g, r)) :
    findLinks l = g :: findLinks r := by
  unfold findLinks
  have hr := matchLinkAt_length h
  rw [findLinksF_succ_some h, findLinksF_congr l.length (r.length + 1) r (by omega) (by omega)]

theorem findLinks_cons_none {c : Char} {cs : List Char} (h : matchLinkAt (c :: cs) = none) :
    findLinks (c :: cs) = findLinks cs := by
  unfold findLinks
  rw [show (c :: cs).length + 1 = cs.length + 1 + 1 by simp, findLinksF_succ_none h]

theorem findLinks_cons_head {c : Char} {cs : List Char} (h : ciEq '<' c = false) :
    findLinks (c :: cs) = findLinks cs :=
  findLinks_cons_none (matchLinkAt_none_of_head h)

theorem findLinks_skip {xs : List Char} (h : noLt xs) (r : List Char) :
    findLinks (xs ++ r) = findLinks r := by
  induction xs with
  | nil => simp
  | cons x xs ih =>
    rw [List.cons_append, findLinks_cons_head (h x (by simp))]
    exact ih (fun c hc => h c (by simp [hc]))

theorem extractFontImports_eq (html : List Char) :
    extractFontImports html = joinNL ((fontHrefs html).map mkImport) := by
  unfold extractFontImports fontHrefs
  cases findFirstContent headTag html <;> rfl

theorem tagBlock_append (tag attrs content r : List Char) :
    tagBlock tag attrs content ++ r =
      ('<' :: tag) ++ attrs ++ '>' ::
        (content ++ (('<' :: '/' :: (tag ++ ['>'])) ++ r)) := by
  simp [tagBlock]

theorem matchBlockParts_at_tagBlock {tag attrs content : List Char} (ha : noGt attrs)
    (hc : noLt content) (r : List Char) :
    matchBlockParts tag (tagBlock tag attrs content ++ r) =
      some (tagBlock tag attrs content, content, r) := by
  rw [tagBlock_append, matchBlockParts_at ha hc]
  simp [tagBlock]

theorem findBlocks_at_tagBlock {tag attrs content : List Char} (ha : noGt attrs)
    (hc : noLt content) (r : List Char) :
    findBlocks tag (tagBlock tag attrs content ++ r) =
      tagBlock tag attrs content :: findBlocks tag r :=
  findBlocks_some (matchBlockParts_at_tagBlock ha hc r)

theorem removeBlocks_at_tagBlock {tag attrs content : List Char} (ha : noGt attrs)
    (hc : noLt content) (r : List Char) :
    removeBlocks tag (tagBlock tag attrs content ++ r) = removeBlocks tag r :=
  removeBlocks_some (matchBlockParts_at_tagBlock ha hc r)

theorem scriptTag_eq : scriptTag = 's' :: 'c' :: 'r' :: 'i' :: 'p' :: 't' :: [] := rfl

theorem styleTag_eq : styleTag = 's' :: 't' :: 'y' :: 'l' :: 'e' :: [] := rfl

theorem tagBlock_script_cons (attrs content r : List Char) :
    tagBlock scriptTag attrs content ++ r =
      '<' :: (('s' :: 'c' :: 'r' :: 'i' :: 'p' :: 't' :: []) ++
        (attrs ++ '>' :: (content ++
          '<' :: (('/' :: 's' :: 'c' :: 'r' :: 'i' :: 'p' :: 't' :: '>' :: []) ++ r)))) := by
  simp [tagBlock, scriptTag_eq]

theorem tagBlock_style_cons (attrs content r : List Char) :
    tagBlock styleTag attrs content ++ r =
      '<' :: (('s' :: 't' :: 'y' :: 'l' :: 'e' :: []) ++
        (attrs ++ '>' :: (content ++
          '<' :: (('/' :: 's' :: 't' :: 'y' :: 'l' :: 'e' :: '>' :: []) ++ r)))) := by
  simp [tagBlock, styleTag_eq]

theorem findBlocks_style_skip_script {attrs content : List Char} (hla : noLt attrs)
    (hc : noLt content) (r : List Char) :
    findBlocks styleTag (tagBlock scriptTag attrs content ++ r) =
      findBlocks styleTag r := by
  rw [tagBlock_script_cons]
  rw [findBlocks_cons_none (matchBlockParts_none_of_not_sw
    (by simp +decide [styleTag_eq, startsWithCI, ciEq]))]
  rw [findBlocks_skip (by decide)]
  rw [findBlocks_skip hla]
  rw [findBlocks_cons_head (by decide)]
  rw [findBlocks_skip hc]
  rw [findBlocks_cons_none (matchBlockParts_none_of_not_sw
    (by simp +decide [styleTag_eq, startsWithCI, ciEq]))]
  rw [findBlocks_skip (by decide)]

theorem findBlocks_script_skip_style {attrs content : List Char} (hla : noLt attrs)
    (hc : noLt content) (r : List Char) :
    findBlocks scriptTag (tagBlock styleTag attrs content ++ r) =
      findBlocks scriptTag r := by
  rw [tagBlock_style_cons]
  rw [findBlocks_cons_none (matchBlockParts_none_of_not_sw
    (by simp +decide [scriptTag_eq, startsWithCI, ciEq]))]
  rw [findBlocks_skip (by decide)]
  rw [findBlocks_skip hla]
  rw [findBlocks_cons_head (by decide)]
  rw [findBlocks_skip hc]
  rw [findBlocks_cons_none (matchBlockParts_none_of_not_sw
    (by simp +decide [scriptTag_eq, startsWithCI, ciEq]))]
  rw [findBlocks_skip (by decide)]

theorem removeBlocks_style_keep_script {attrs content : List Char} (hla : noLt attrs)
    (hc : noLt content) (r : List Char) :
    removeBlocks styleTag (tagBlock scriptTag attrs content ++ r) =
      tagBlock scriptTag attrs content ++ removeBlocks styleTag r := by
  rw [tagBlock_script_cons]
  rw [removeBlocks_cons_none (matchBlockParts_none_of_not_sw
    (by simp +decide [styleTag_eq, startsWithCI, ciEq]))]
  rw [removeBlocks_skip (by decide)]
  rw [removeBlocks_skip hla]
  rw [removeBlocks_cons_head (by decide)]
  rw [removeBlocks_skip hc]
  rw [removeBlocks_cons_none (matchBlockParts_none_of_not_sw
    (by simp +decide [styleTag_eq, startsWithCI, ciEq]))]
  rw [removeBlocks_skip (by decide)]
  rw [tagBlock_script_cons]

theorem removeBlocks_script_keep_style {attrs content : List Char} (hla : noLt attrs)
    (hc : noLt content) (r : List Char) :
    removeBlocks scriptTag (tagBlock styleTag attrs content ++ r) =
      tagBlock styleTag attrs content ++ removeBlocks scriptTag r := by
  rw [tagBlock_style_cons]
  rw [removeBlocks_cons_none (matchBlockParts_none_of_not_sw
    (by simp +decide [scriptTag_eq, startsWithCI, ciEq]))]
  rw [removeBlocks_skip (by decide)]
  rw [removeBlocks_skip hla]
  rw [removeBlocks_cons_head (by decide)]
  rw [removeBlocks_skip hc]
  rw [removeBlocks_cons_none (matchBlockParts_none_of_not_sw
    (by simp +decide [scriptTag_eq, startsWithCI, ciEq]))]
  rw [removeBlocks_skip (by decide)]
  rw [tagBlock_style_cons]

theorem match_slash_of_ne {c : Char} {t : List Char} (h : c ≠ '/') :
    (match c :: t with | '/' :: x => x | _ => c :: t) = c :: t := by
  split
  · rename_i x heq; injection heq with h1 _; exact absurd h1 h
  · rfl

theorem matchTagTok_at_open {t0 : Char} {tag' a : List Char} (h0 : t0 ≠ '/')
    (ha : noGt a) (r : List Char) :
    matchTagTok (t0 :: tag') ('<' :: t0 :: (tag' ++ (a ++ '>' :: r))) = some r := by
  unfold matchTagTok
  simp only [match_slash_of_ne h0]
  have hsw : startsWithCI (t0 :: tag') (t0 :: (tag' ++ (a ++ '>' :: r))) = true := by
    have := startsWithCI_append_self (t0 :: tag') (a ++ '>' :: r)
    simpa using this
  rw [if_pos hsw]
  have hdrop : (t0 :: (tag' ++ (a ++ '>' :: r))).drop (t0 :: tag').length
      = a ++ '>' :: r := by
    simp [List.drop_left]
  rw [hdrop, gtSplit_append ha]

theorem matchTagTok_at_close {tag a : List Char} (ha : noGt a) (r : List Char) :
    matchTagTok tag ('<' :: '/' :: (tag ++ (a ++ '>' :: r))) = some r := by
  unfold matchTagTok
  simp only
  have hsw : startsWithCI tag (tag ++ (a ++ '>' :: r)) = true :=
    startsWithCI_append_self _ _
  rw [if_pos hsw]
  have hdrop : (tag ++ (a ++ '>' :: r)).drop tag.length = a ++ '>' :: r := by
    simp [List.drop_left]
  rw [hdrop, gtSplit_append ha]

theorem stripTags_tagBlock {t0 : Char} {tag' a c : List Char} (h0 : t0 ≠ '/')
    (ha : noGt a) (hc : noLt c) :
    stripTags (t0 :: tag') (tagBlock (t0 :: tag') a c) = c := by
  have e : tagBlock (t0 :: tag') a c =
      '<' :: t0 :: (tag' ++ (a ++ '>' :: (c ++ ('<' :: '/' :: ((t0 :: tag') ++ ([] ++ '>' :: [])))))) := by
    simp [tagBlock]
  rw [e, stripTags_some (matchTagTok_at_open h0 ha _), stripTags_skip hc,
    stripTags_some (matchTagTok_at_close (by simp [noGt]) []), stripTags_nil,
    List.append_nil]

theorem bodyTag_eq : bodyTag = 'b' :: 'o' :: 'd' :: 'y' :: [] := rfl

theorem bodyCloser_eq : bodyCloser = '<' :: ('/' :: (bodyTag ++ ['>'])) := rfl

theorem closerSplit_body_keep_style {a c : List Char} (hla : noLt a) (hc : noLt c)
    (r : List Char) :
    closerSplit bodyCloser (tagBlock styleTag a c ++ r) =
      (closerSplit bodyCloser r).map
        (fun v => (tagBlock styleTag a c ++ v.1, v.2.1, v.2.2)) := by
  rw [tagBlock_style_cons]
  rw [closerSplit_cons_of_not (by simp +decide [bodyCloser, startsWithCI, ciEq])]
  rw [bodyCloser_eq]
  rw [closerSplit_through (by decide : noLt ('s' :: 't' :: 'y' :: 'l' :: 'e' :: []))]
  rw [closerSplit_through hla]
  rw [show ('>' :: (c ++ '<' :: (('/' :: 's' :: 't' :: 'y' :: 'l' :: 'e' :: '>' :: []) ++ r)))
    = ['>'] ++ (c ++ '<' :: (('/' :: 's' :: 't' :: 'y' :: 'l' :: 'e' :: '>' :: []) ++ r)) from rfl]
  rw [closerSplit_through (by decide : noLt ['>'])]
  rw [closerSplit_through hc]
  rw [← bodyCloser_eq]
  rw [closerSplit_cons_of_not (by simp +decide [bodyCloser, bodyTag_eq, startsWithCI, ciEq])]
  rw [bodyCloser_eq]
  rw [closerSplit_through (by decide : noLt ('/' :: 's' :: 't' :: 'y' :: 'l' :: 'e' :: '>' :: []))]
  rw [← bodyCloser_eq]
  cases hS : closerSplit bodyCloser r with
  | none => rfl
  | some v =>
    obtain ⟨av, ct, rr⟩ := v
    simp [tagBlock, styleTag_eq]

theorem closerSplit_body_keep_script {a c : List Char} (hla : noLt a) (hc : noLt c)
    (r : List Char) :
    closerSplit bodyCloser (tagBlock scriptTag a c ++ r) =
      (closerSplit bodyCloser r).map
        (fun v => (tagBlock scriptTag a c ++ v.1, v.2.1, v.2.2)) := by
  rw [tagBlock_script_cons]
  rw [closerSplit_cons_of_not (by simp +decide [bodyCloser, startsWithCI, ciEq])]
  rw [bodyCloser_eq]
  rw [closerSplit_through (by decide : noLt ('s' :: 'c' :: 'r' :: 'i' :: 'p' :: 't' :: []))]
  rw [closerSplit_through hla]
  rw [show ('>' :: (c ++ '<' :: (('/' :: 's' :: 'c' :: 'r' :: 'i' :: 'p' :: 't' :: '>' :: []) ++ r)))
    = ['>'] ++ (c ++ '<' :: (('/' :: 's' :: 'c' :: 'r' :: 'i' :: 'p' :: 't' :: '>' :: []) ++ r)) from rfl]
  rw [closerSplit_through (by decide : noLt ['>'])]
  rw [closerSplit_through hc]
  rw [← bodyCloser_eq]
  rw [closerSplit_cons_of_not (by simp +decide [bodyCloser, bodyTag_eq, startsWithCI, ciEq])]
  rw [bodyCloser_eq]
  rw [closerSplit_through (by decide : noLt ('/' :: 's' :: 'c' :: 'r' :: 'i' :: 'p' :: 't' :: '>' :: []))]
  rw [← bodyCloser_eq]
  cases hS : closerSplit bodyCloser r with
  | none => rfl
  | some v =>
    obtain ⟨av, ct, rr⟩ := v
    simp [tagBlock, scriptTag_eq]

theorem renderSegs_nil : renderSegs [] = [] := rfl

theorem renderSegs_cons (g : Seg) (gs : List Seg) :
    renderSegs (g :: gs) = g.render ++ renderSegs gs := by
  simp [renderSegs]

theorem findBlocks_style_render {segs : List Seg} (h : ∀ g ∈ segs, g.ok)
    (r : List Char) :
    findBlocks styleTag (renderSegs segs ++ r) =
      ((segs.filter Seg.isStyle).map Seg.render) ++ findBlocks styleTag r := by
  induction segs with
  | nil => simp [renderSegs_nil]
  | cons g gs ih =>
    have hg := h g (by simp)
    have hgs := fun x hx => h x (List.mem_cons_of_mem _ hx)
    rw [renderSegs_cons, List.append_assoc]
    cases g with
    | plain s =>
      rw [show Seg.render (Seg.plain s) = s from rfl, findBlocks_skip hg, ih hgs]
      simp [Seg.isStyle]
    | styleB a c =>
      obtain ⟨ha, hla, hc⟩ := hg
      rw [show Seg.render (Seg.styleB a c) = tagBlock styleTag a c from rfl,
        findBlocks_at_tagBlock ha hc, ih hgs]
      simp [Seg.isStyle, Seg.render]
    | scriptB a c =>
      obtain ⟨ha, hla, hc⟩ := hg
      rw [show Seg.render (Seg.scriptB a c) = tagBlock scriptTag a c from rfl,
        findBlocks_style_skip_script hla hc, ih hgs]
      simp [Seg.isStyle]

theorem findBlocks_script_render {segs : List Seg} (h : ∀ g ∈ segs, g.ok)
    (r : List Char) :
    findBlocks scriptTag (renderSegs segs ++ r) =
      ((segs.filter Seg.isScript).map Seg.render) ++ findBlocks scriptTag r := by
  induction segs with
  | nil => simp [renderSegs_nil]
  | cons g gs ih =>
    have hg := h g (by simp)
    have hgs := fun x hx => h x (List.mem_cons_of_mem _ hx)
    rw [renderSegs_cons, List.append_assoc]
    cases g with
    | plain s =>
      rw [show Seg.render (Seg.plain s) = s from rfl, findBlocks_skip hg, ih hgs]
      simp [Seg.isScript]
    | styleB a c =>
      obtain ⟨ha, hla, hc⟩ := hg
      rw [show Seg.render (Seg.styleB a c) = tagBlock styleTag a c from rfl,
        findBlocks_script_skip_style hla hc, ih hgs]
      simp [Seg.isScript]
    | scriptB a c =>
      obtain ⟨ha, hla, hc⟩ := hg
      rw [show Seg.render (Seg.scriptB a c) = tagBlock scriptTag a c from rfl,
        findBlocks_at_tagBlock ha hc, ih hgs]
      simp [Seg.isScript, Seg.render]

theorem removeBlocks_style_render {segs : List Seg} (h : ∀ g ∈ segs, g.ok)
    (r : List Char) :
    removeBlocks styleTag (renderSegs segs ++ r) =
      renderSegs (segs.filter (fun g => !g.isStyle)) ++ removeBlocks styleTag r := by
  induction segs with
  | nil => simp [renderSegs_nil]
  | cons g gs ih =>
    have hg := h g (by simp)
    have hgs := fun x hx => h x (List.mem_cons_of_mem _ hx)
    rw [renderSegs_cons, List.append_assoc]
    cases g with
    | plain s =>
      rw [show Seg.render (Seg.plain s) = s from rfl, removeBlocks_skip hg, ih hgs]
      simp [Seg.isStyle, renderSegs_cons, Seg.render]
    | styleB a c =>
      obtain ⟨ha, hla, hc⟩ := hg
      rw [show Seg.render (Seg.styleB a c) = tagBlock styleTag a c from rfl,
        removeBlocks_at_tagBlock ha hc, ih hgs]
      simp [Seg.isStyle]
    | scriptB a c =>
      obtain ⟨ha, hla, hc⟩ := hg
      rw [show Seg.render (Seg.scriptB a c) = tagBlock scriptTag a c from rfl,
        removeBlocks_style_keep_script hla hc, ih hgs]
      simp [Seg.isStyle, renderSegs_cons, Seg.render]

theorem removeBlocks_script_render {segs : List Seg} (h : ∀ g ∈ segs, g.ok)
    (r : List Char) :
    removeBlocks scriptTag (renderSegs segs ++ r) =
      renderSegs (segs.filter (fun g => !g.isScript)) ++ removeBlocks scriptTag r := by
  induction segs with
  | nil => simp [renderSegs_nil]
  | cons g gs ih =>
    have hg := h g (by simp)
    have hgs := fun x hx => h x (List.mem_cons_of_mem _ hx)
    rw [renderSegs_cons, List.append_assoc]
    cases g with
    | plain s =>
      rw [show Seg.render (Seg.plain s) = s from rfl, removeBlocks_skip hg, ih hgs]
      simp [Seg.isScript, renderSegs_cons, Seg.render]
    | styleB a c =>
      obtain ⟨ha, hla, hc⟩ := hg
      rw [show Seg.render (Seg.styleB a c) = tagBlock styleTag a c from rfl,
        removeBlocks_script_keep_style hla hc, ih hgs]
      simp [Seg.isScript, renderSegs_cons, Seg.render]
    | scriptB a c =>
      obtain ⟨ha, hla, hc⟩ := hg
      rw [show Seg.render (Seg.scriptB a c) = tagBlock scriptTag a c from rfl,
        removeBlocks_at_tagBlock ha hc, ih hgs]
      simp [Seg.isScript]

theorem closerSplit_body_render {segs : List Seg} (h : ∀ g ∈ segs, g.ok)
    (r : List Char) :
    closerSplit bodyCloser (renderSegs segs ++ r) =
      (closerSplit bodyCloser r).map
        (fun v => (renderSegs segs ++ v.1, v.2.1, v.2.2)) := by
  induction segs with
  | nil =>
    rw [renderSegs_nil, List.nil_append]
    cases closerSplit bodyCloser r with
    | none => rfl
    | some v => obtain ⟨a, ct, rr⟩ := v; rfl
  | cons g gs ih =>
    have hg := h g (by simp)
    have hgs := fun x hx => h x (List.mem_cons_of_mem _ hx)
    rw [renderSegs_cons, List.append_assoc]
    have step : closerSplit bodyCloser (g.render ++ (renderSegs gs ++ r)) =
        (closerSplit bodyCloser (renderSegs gs ++ r)).map
          (fun v => (g.render ++ v.1, v.2.1, v.2.2)) := by
      cases g with
      | plain s =>
        rw [show Seg.render (Seg.plain s) = s from rfl, bodyCloser_eq,
          closerSplit_through hg]
      | styleB a c =>
        obtain ⟨ha, hla, hc⟩ := hg
        exact closerSplit_body_keep_style hla hc _
      | scriptB a c =>
        obtain ⟨ha, hla, hc⟩ := hg
        exact closerSplit_body_keep_script hla hc _
    rw [step, ih hgs]
    cases closerSplit bodyCloser r with
    | none => rfl
    | some v =>
      obtain ⟨a, ct, rr⟩ := v
      simp [renderSegs_cons]

theorem matchBlockParts_body_render {segs : List Seg} (h : ∀ g ∈ segs, g.ok) :
    matchBlockParts bodyTag (tagBlock bodyTag [] (renderSegs segs)) =
      some (tagBlock bodyTag [] (renderSegs segs), renderSegs segs, []) := by
  have hopen : matchOpen bodyTag (tagBlock bodyTag [] (renderSegs segs)) =
      some (('<' :: bodyTag) ++ [] ++ ['>'], renderSegs segs ++ (bodyCloser ++ [])) := by
    rw [show tagBlock bodyTag [] (renderSegs segs) =
      ('<' :: bodyTag) ++ [] ++ '>' :: (renderSegs segs ++ (bodyCloser ++ []))
      from by simp [tagBlock, bodyCloser]]
    exact matchOpen_at (by simp [noGt]) _
  have hcs : closerSplit bodyCloser (renderSegs segs ++ (bodyCloser ++ [])) =
      some (renderSegs segs, bodyCloser, []) := by
    rw [closerSplit_body_render h, closerSplit_at_self (by simp [bodyCloser]) []]
    simp
  unfold matchBlockParts
  simp only [hopen]
  rw [← bodyCloser_eq]
  simp only [hcs]
  simp [tagBlock, bodyCloser]

theorem mem_jsTrim {c : Char} {l : List Char} (h : c ∈ jsTrim l) : c ∈ l := by
  unfold jsTrim at h
  rw [List.mem_reverse] at h
  have h1 := (@List.dropWhile_sublist _ ((l.dropWhile isWs).reverse) isWs).mem h
  rw [List.mem_reverse] at h1
  exact (List.dropWhile_sublist isWs).mem h1

theorem hasSub_false_of_noLt {p' l : List Char} (h : noLt l) :
    hasSub ('<' :: p') l = false := by
  induction l with
  | nil => rfl
  | cons c cs ih =>
    have hc : c ≠ '<' := ciEq_lt_eq (h c (by simp))
    have : ('<' == c) = false := by
      simp only [beq_eq_false_iff_ne]
      exact fun e => hc e.symm
    simp only [hasSub, startsWithL, this, Bool.false_and, Bool.false_or]
    exact ih (fun x hx => h x (by simp [hx]))

theorem noLt_renderSegs_plains {segs : List Seg} (hok : ∀ g ∈ segs, g.ok) :
    noLt (renderSegs ((segs.filter (fun g => !g.isStyle)).filter (fun g => !g.isScript))) := by
  intro c hc
  unfold renderSegs at hc
  rw [List.mem_flatten] at hc
  obtain ⟨part, hpart, hcpart⟩ := hc
  rw [List.mem_map] at hpart
  obtain ⟨g, hg, hrender⟩ := hpart
  rw [List.mem_filter] at hg
  obtain ⟨hg1, hg2⟩ := hg
  rw [List.mem_filter] at hg1
  obtain ⟨hgmem, hg3⟩ := hg1
  cases g with
  | plain s =>
    have := hok _ hgmem
    rw [← hrender] at hcpart
    exact this c hcpart
  | styleB a cc => simp [Seg.isStyle] at hg3
  | scriptB a cc => simp [Seg.isScript] at hg2

theorem extractBodyContent_render {segs : List Seg} (hok : ∀ g ∈ segs, g.ok) :
    extractBodyContent (tagBlock bodyTag [] (renderSegs segs)) =
      jsTrim (renderSegs ((segs.filter (fun g => !g.isStyle)).filter
        (fun g => !g.isScript))) := by
  have hffc : findFirstContent bodyTag (tagBlock bodyTag [] (renderSegs segs)) =
      some (renderSegs segs) := by
    have hmb := matchBlockParts_body_render hok
    rw [show tagBlock bodyTag [] (renderSegs segs) =
      '<' :: (bodyTag ++ ([] ++ '>' :: (renderSegs segs ++ ('<' :: '/' :: (bodyTag ++ ['>'])))))
      from by simp [tagBlock]] at hmb ⊢
    exact findFirstContent_cons_some hmb
  unfold extractBodyContent
  rw [hffc]
  have h1 : removeBlocks styleTag (renderSegs segs) =
      renderSegs (segs.filter (fun g => !g.isStyle)) := by
    rw [show renderSegs segs = renderSegs segs ++ [] from by simp,
      removeBlocks_style_render hok, removeBlocks_nil, List.append_nil]
  have hok1 : ∀ g ∈ segs.filter (fun g => !g.isStyle), g.ok := by
    intro g hg
    exact hok g (List.mem_of_mem_filter hg)
  have h2 : removeBlocks scriptTag (renderSegs (segs.filter (fun g => !g.isStyle))) =
      renderSegs ((segs.filter (fun g => !g.isStyle)).filter (fun g => !g.isScript)) := by
    rw [show renderSegs (segs.filter (fun g => !g.isStyle)) =
      renderSegs (segs.filter (fun g => !g.isStyle)) ++ [] from by simp,
      removeBlocks_script_render hok1, removeBlocks_nil, List.append_nil]
  simp only [Option.getD_some, h1, h2]

theorem stripTags_style_inner {g : Seg} (hg : g.ok) (hs : g.isStyle = true) :
    stripTags styleTag g.render = g.inner := by
  cases g with
  | plain s => simp [Seg.isStyle] at hs
  | scriptB a c => simp [Seg.isStyle] at hs
  | styleB a c =>
    obtain ⟨ha, hla, hc⟩ := hg
    show stripTags styleTag (tagBlock styleTag a c) = c
    rw [styleTag_eq]
    exact stripTags_tagBlock (by decide) ha hc

theorem stripTags_script_inner {g : Seg} (hg : g.ok) (hs : g.isScript = true) :
    stripTags scriptTag g.render = g.inner := by
  cases g with
  | plain s => simp [Seg.isScript] at hs
  | styleB a c => simp [Seg.isScript] at hs
  | scriptB a c =>
    obtain ⟨ha, hla, hc⟩ := hg
    show stripTags scriptTag (tagBlock scriptTag a c) = c
    rw [scriptTag_eq]
    exact stripTags_tagBlock (by decide) ha hc

theorem ifJoin_eq {f : List Char → List Char} {xs ys : List (List Char)}
    (h : xs.map f = ys) :
    (if xs.isEmpty then ([] : List Char) else joinNL (xs.map f)) = joinNL ys := by
  cases xs with
  | nil =>
    cases h
    rfl
  | cons a as =>
    rw [h]
    rfl

theorem extractFromSingleFile_render {segs : List Seg} (hok : ∀ g ∈ segs, g.ok) :
    extractFromSingleFile (renderSegs segs) =
      (joinNL ((segs.filter Seg.isStyle).map Seg.inner),
       joinNL ((segs.filter Seg.isScript).map Seg.inner)) := by
  have hfb1 : findBlocks styleTag (renderSegs segs) =
      (segs.filter Seg.isStyle).map Seg.render := by
    rw [show renderSegs segs = renderSegs segs ++ [] from by simp,
      findBlocks_style_render hok, findBlocks_nil, List.append_nil]
  have hfb2 : findBlocks scriptTag (renderSegs segs) =
      (segs.filter Seg.isScript).map Seg.render := by
    rw [show renderSegs segs = renderSegs segs ++ [] from by simp,
      findBlocks_script_render hok, findBlocks_nil, List.append_nil]
  have hmap1 : ((segs.filter Seg.isStyle).map Seg.render).map (stripTags styleTag) =
      (segs.filter Seg.isStyle).map Seg.inner := by
    rw [List.map_map]
    apply List.map_congr_left
    intro g hg
    rw [List.mem_filter] at hg
    exact stripTags_style_inner (hok g hg.1) hg.2
  have hmap2 : ((segs.filter Seg.isScript).map Seg.render).map (stripTags scriptTag) =
      (segs.filter Seg.isScript).map Seg.inner := by
    rw [List.map_map]
    apply List.map_congr_left
    intro g hg
    rw [List.mem_filter] at hg
    exact stripTags_script_inner (hok g hg.1) hg.2
  unfold extractFromSingleFile
  simp only [hfb1, hfb2, ifJoin_eq hmap1, ifJoin_eq hmap2]

theorem hasSubCI_of_hostTailScan {l : List Char} (h : hostTailScan l = true) :
    hasSubCI hostPat l = true := by
  induction l with
  | nil => simp [hostTailScan] at h
  | cons c cs ih =>
    unfold hostTailScan at h
    rw [Bool.or_eq_true] at h
    cases h with
    | inl h1 =>
      rw [Bool.and_eq_true] at h1
      unfold hasSubCI
      rw [h1.1, Bool.true_or]
    | inr h2 =>
      unfold hasSubCI
      rw [ih h2, Bool.or_true]

theorem hasSubCI_of_hostMargin {r : List Char} (h : hostMargin r = true) :
    hasSubCI hostPat r = true := by
  unfold hostMargin at h
  match r, h with
  | c :: cs, h =>
    unfold hasSubCI
    rw [hasSubCI_of_hostTailScan h, Bool.or_true]

theorem matchAfterHref_hostMargin {l g rr : List Char}
    (h : matchAfterHref l = some (g, rr)) : hostMargin g = true := by
  unfold matchAfterHref at h
  match l, h with
  | q :: l1, h =>
    simp only at h
    by_cases hq : isQuote q = true
    · rw [if_pos hq] at h
      set r := l1.takeWhile (fun c => !(isQuote c)) with hr
      cases hd : l1.drop r.length with
      | nil => simp only [hd] at h; cases h
      | cons q2 l3 =>
        simp only [hd] at h
        by_cases hm : hostMargin r = true
        · rw [if_pos hm] at h
          cases hg : gtSplit l3 with
          | none => simp only [hg] at h; cases h
          | some tr =>
            obtain ⟨t, rest⟩ := tr
            simp only [hg, Option.some.injEq, Prod.mk.injEq] at h
            rw [← h.1]
            exact hm
        · rw [if_neg hm] at h; cases h
    · rw [if_neg hq] at h; cases h

theorem tryCands_hostMargin {rest g rr : List Char} {ps : List Nat}
    (h : tryCands rest ps = some (g, rr)) : hostMargin g = true := by
  induction ps with
  | nil => simp [tryCands] at h
  | cons p ps ih =>
    unfold tryCands at h
    cases hm : matchAfterHref (rest.drop (p + 5)) with
    | some gr =>
      obtain ⟨g', rr'⟩ := gr
      simp only [hm, Option.some.injEq, Prod.mk.injEq] at h
      rw [← h.1]
      exact matchAfterHref_hostMargin hm
    | none =>
      simp only [hm] at h
      exact ih h

theorem matchLinkAt_hostMargin {l g rr : List Char}
    (h : matchLinkAt l = some (g, rr)) : hostMargin g = true := by
  unfold matchLinkAt at h
  by_cases hs : startsWithCI linkPat l = true
  · rw [if_pos hs] at h
    exact tryCands_hostMargin h
  · rw [if_neg hs] at h; cases h

theorem findLinksF_host :
    ∀ f l, ∀ g ∈ findLinksF f l, hasSubCI hostPat g = true := by
  intro f
  induction f with
  | zero => intro l g h; simp [findLinksF] at h
  | succ f ih =>
    intro l g h
    cases hm : matchLinkAt l with
    | some v =>
      obtain ⟨g0, r⟩ := v
      rw [findLinksF_succ_some hm] at h
      rcases List.mem_cons.mp h with rfl | h2
      · exact hasSubCI_of_hostMargin (matchLinkAt_hostMargin hm)
      · exact ih r g h2
    | none =>
      cases l with
      | nil => simp [findLinksF, hm] at h
      | cons x cs =>
        rw [findLinksF_succ_none hm] at h
        exact ih cs g h

theorem findLinks_host (l : List Char) : ∀ g ∈ findLinks l, hasSubCI hostPat g = true :=
  findLinksF_host (l.length + 1) l

theorem fontHrefs_host (html : List Char) :
    ∀ g ∈ fontHrefs html, hasSubCI hostPat g = true := by
  unfold fontHrefs
  cases hh : findFirstContent headTag html with
  | none => intro g hg; simp at hg
  | some hc => exact findLinks_host hc

theorem wrapFooter_rev : wrapFooter.reverse =
    ';' :: ')' :: '(' :: 't' :: 'i' :: 'n' :: 'i' :: '\n' :: '\n' :: '\x7d' :: '\n' :: [] := by
  decide

theorem wrapped_cons (x : List Char) : wrapHeader ++ x ++ wrapFooter =
    'f' :: 'u' :: 'n' :: 'c' :: 't' :: 'i' :: 'o' :: 'n' :: ' ' :: 'i' :: 'n' :: 'i' ::
      't' :: '(' :: ')' :: ' ' :: '\x7b' :: ('\n' :: (x ++ wrapFooter)) := by
  rw [show wrapHeader = 'f' :: 'u' :: 'n' :: 'c' :: 't' :: 'i' :: 'o' :: 'n' :: ' ' :: 'i' ::
    'n' :: 'i' :: 't' :: '(' :: ')' :: ' ' :: '\x7b' :: '\n' :: [] from rfl]
  simp

theorem wrapped_rev (x : List Char) : (wrapHeader ++ x ++ wrapFooter).reverse =
    ';' :: ')' :: '(' :: 't' :: 'i' :: 'n' :: 'i' ::
      ('\n' :: '\n' :: '\x7d' :: '\n' :: [] ++ (x.reverse ++ wrapHeader.reverse)) := by
  rw [List.reverse_append, List.reverse_append, wrapFooter_rev]
  simp

theorem endsWithCall_wrapped (x : List Char) :
    endsWithCall (wrapHeader ++ x ++ wrapFooter) = true := by
  unfold endsWithCall
  rw [wrapped_rev]
  rfl

theorem hasInitFunction_wrapped (x : List Char) :
    hasInitFunction (wrapHeader ++ x ++ wrapFooter) = true := by
  unfold hasInitFunction
  rw [wrapped_cons, Bool.or_eq_true]
  left
  rfl

theorem jsTrim_wrapped (x : List Char) :
    jsTrim (wrapHeader ++ x ++ wrapFooter) = wrapHeader ++ x ++ wrapFooter := by
  unfold jsTrim
  have h1 : (wrapHeader ++ x ++ wrapFooter).dropWhile isWs =
      wrapHeader ++ x ++ wrapFooter := by
    rw [wrapped_cons]
    rfl
  rw [h1]
  have h2 : (wrapHeader ++ x ++ wrapFooter).reverse.dropWhile isWs =
      (wrapHeader ++ x ++ wrapFooter).reverse := by
    rw [wrapped_rev]
    rfl
  rw [h2, List.reverse_reverse]

theorem isAlreadyWrapped_wrapped (x : List Char) :
    isAlreadyWrapped (wrapHeader ++ x ++ wrapFooter) = true := by
  unfold isAlreadyWrapped
  rw [jsTrim_wrapped, hasInitFunction_wrapped, endsWithCall_wrapped]
  rfl

theorem dropWhile_ws_nil {w : List Char} (h : WsRun w) : w.dropWhile isWs = [] := by
  induction w with
  | nil => rfl
  | cons c cs ih =>
    rw [List.dropWhile_cons, if_pos (h c (by simp))]
    exact ih (fun x hx => h x (by simp [hx]))

theorem dropWhile_ws_append {w rest : List Char} (h : WsRun w) :
    (w ++ rest).dropWhile isWs = rest.dropWhile isWs := by
  rw [List.dropWhile_append, dropWhile_ws_nil h]
  simp

theorem dropWhile_not_ws_head {c : Char} {cs : List Char} (h : isWs c = false) :
    (c :: cs).dropWhile isWs = c :: cs := by
  rw [List.dropWhile_cons, if_neg (by simp [h])]

theorem WsRun_reverse {w : List Char} (h : WsRun w) : WsRun w.reverse := by
  intro c hc
  exact h c (List.mem_reverse.mp hc)

theorem semiSkip_of_ne {c : Char} {x : List Char} (h : c ≠ ';') :
    (match c :: x with | ';' :: y => y | _ => c :: x) = c :: x := by
  split
  · rename_i y heq; injection heq with h1 _; exact absurd h1 h
  · rfl

theorem initName_rev : initName.reverse = 't' :: 'i' :: 'n' :: 'i' :: [] := by decide

theorem mainName_rev : mainName.reverse = 'n' :: 'i' :: 'a' :: 'm' :: [] := by decide

theorem afterSemi_semi (x : List Char) : afterSemi (';' :: x) = x := rfl

theorem afterSemi_of_ne {c : Char} {x : List Char} (h : c ≠ ';') :
    afterSemi (c :: x) = c :: x := by
  unfold afterSemi
  exact semiSkip_of_ne h

theorem closeParen_cons (x : List Char) : closeParen (')' :: x) = parenTail x := rfl

theorem parenTail_of {x y : List Char} (h : x.dropWhile isWs = '(' :: y) :
    parenTail x = (startsWithL initName.reverse (y.dropWhile isWs)
      || startsWithL mainName.reverse (y.dropWhile isWs)) := by
  unfold parenTail
  rw [h]
  rfl

theorem endsWithCall_of_shape {t : List Char} (h : EndsCallShape t) :
    endsWithCall t = true := by
  obtain ⟨pre, nm, w1, w2, w3, semi, w4, hnm, hw1, hw2, hw3, hw4, hsemi, ht⟩ := h
  have hrev : t.reverse =
      w4.reverse ++ (semi.reverse ++ (w3.reverse ++ (')' ::
        (w2.reverse ++ ('(' :: (w1.reverse ++ (nm.reverse ++ pre.reverse))))))) := by
    rw [ht]; simp
  have e1 : (afterSemi (t.reverse.dropWhile isWs)).dropWhile isWs =
      ')' :: (w2.reverse ++ ('(' :: (w1.reverse ++ (nm.reverse ++ pre.reverse)))) := by
    rw [hrev, dropWhile_ws_append (WsRun_reverse hw4)]
    rcases hsemi with rfl | rfl
    · rw [List.reverse_nil, List.nil_append,
        dropWhile_ws_append (WsRun_reverse hw3),
        dropWhile_not_ws_head (by decide),
        afterSemi_of_ne (by decide),
        dropWhile_not_ws_head (by decide)]
    · rw [show ([';'] : List Char).reverse = [';'] from rfl,
        List.singleton_append,
        dropWhile_not_ws_head (by decide),
        afterSemi_semi,
        dropWhile_ws_append (WsRun_reverse hw3),
        dropWhile_not_ws_head (by decide)]
  unfold endsWithCall
  rw [e1, closeParen_cons,
    parenTail_of (by rw [dropWhile_ws_append (WsRun_reverse hw2),
      dropWhile_not_ws_head (by decide)]),
    dropWhile_ws_append (WsRun_reverse hw1)]
  rcases hnm with rfl | rfl
  · have hd : List.dropWhile isWs (initName.reverse ++ pre.reverse) =
        initName.reverse ++ pre.reverse := by
      rw [initName_rev]
      simp only [List.cons_append, List.nil_append]
      exact dropWhile_not_ws_head (by decide)
    rw [hd, startsWithL_append_self]
    rfl
  · have hd : List.dropWhile isWs (mainName.reverse ++ pre.reverse) =
        mainName.reverse ++ pre.reverse := by
      rw [mainName_rev]
      simp only [List.cons_append, List.nil_append]
      exact dropWhile_not_ws_head (by decide)
    rw [hd, startsWithL_append_self]
    simp

theorem dropWhile_dropWhile (l : List Char) :
    (l.dropWhile isWs).dropWhile isWs = l.dropWhile isWs := by
  induction l with
  | nil => rfl
  | cons c cs ih =>
    by_cases h : isWs c = true
    · rw [List.dropWhile_cons, if_pos h, ih]
    · rw [List.dropWhile_cons, if_neg h, List.dropWhile_cons, if_neg h]

theorem takeWhile_ws (l : List Char) : WsRun (l.takeWhile isWs) := by
  intro c hc
  exact List.mem_takeWhile_imp hc

theorem afterSemi_cases (r : List Char) :
    (∃ x, r = ';' :: x ∧ afterSemi r = x) ∨ afterSemi r = r := by
  match r with
  | [] => right; rfl
  | c :: x =>
    by_cases h : c = ';'
    · subst h; left; exact ⟨x, rfl, rfl⟩
    · right; exact afterSemi_of_ne h

theorem closeParen_of_ne {c : Char} {x : List Char} (h : c ≠ ')') :
    closeParen (c :: x) = false := by
  unfold closeParen
  split
  · rename_i y heq; injection heq with h1 _; exact absurd h1 h
  · rfl

theorem closeParen_shape {r : List Char} (h : closeParen r = true) :
    ∃ x, r = ')' :: x ∧ parenTail x = true := by
  match r, h with
  | [], h => cases h
  | c :: x, h =>
    by_cases hc : c = ')'
    · subst hc
      rw [closeParen_cons] at h
      exact ⟨x, rfl, h⟩
    · rw [closeParen_of_ne hc] at h
      cases h

theorem parenTail_none {x : List Char} (hd : x.dropWhile isWs = []) :
    parenTail x = false := by
  unfold parenTail
  rw [hd]

theorem parenTail_of_ne {x : List Char} {c : Char} {y : List Char}
    (hd : x.dropWhile isWs = c :: y) (h : c ≠ '(') : parenTail x = false := by
  unfold parenTail
  rw [hd]
  split
  · rename_i z heq; injection heq with h1 _; exact absurd h1 h
  · rfl

theorem parenTail_shape {x : List Char} (h : parenTail x = true) :
    ∃ y, x.dropWhile isWs = '(' :: y ∧
      (startsWithL initName.reverse (y.dropWhile isWs) = true
        ∨ startsWithL mainName.reverse (y.dropWhile isWs) = true) := by
  cases hd : x.dropWhile isWs with
  | nil => rw [parenTail_none hd] at h; cases h
  | cons c y =>
    by_cases hc : c = '('
    · subst hc
      rw [parenTail_of hd] at h
      rw [Bool.or_eq_true] at h
      exact ⟨y, rfl, h⟩
    · rw [parenTail_of_ne hd hc] at h
      cases h

theorem tailCallAssemble {x2 : List Char}
    (hpt : parenTail x2 = true) :
    ∃ w2 w1 nm z, WsRun w2 ∧ WsRun w1 ∧ (nm = initName ∨ nm = mainName) ∧
      x2 = w2 ++ ('(' :: (w1 ++ (nm.reverse ++ z))) := by
  obtain ⟨y, hy, hsw⟩ := parenTail_shape hpt
  have hx2 : x2 = x2.takeWhile isWs ++ ('(' :: y) := by
    rw [← hy]
    exact (List.takeWhile_append_dropWhile isWs x2).symm
  have hyd : y = y.takeWhile isWs ++ y.dropWhile isWs :=
    (List.takeWhile_append_dropWhile isWs y).symm
  rcases hsw with hsw | hsw
  · obtain ⟨z, hz⟩ := (startsWithL_iff _ _).mp hsw
    refine ⟨x2.takeWhile isWs, y.takeWhile isWs, initName, z,
      takeWhile_ws x2, takeWhile_ws y, Or.inl rfl, ?_⟩
    conv_lhs => rw [hx2, hyd, hz]
  · obtain ⟨z, hz⟩ := (startsWithL_iff _ _).mp hsw
    refine ⟨x2.takeWhile isWs, y.takeWhile isWs, mainName, z,
      takeWhile_ws x2, takeWhile_ws y, Or.inr rfl, ?_⟩
    conv_lhs => rw [hx2, hyd, hz]

theorem endsWithCall_fwd_core {r : List Char}
    (h : closeParen ((afterSemi (r.dropWhile isWs)).dropWhile isWs) = true) :
    ∃ w4 semi w3 w2 w1 nm z, WsRun w4 ∧ (semi = [] ∨ semi = [';']) ∧ WsRun w3 ∧
      WsRun w2 ∧ WsRun w1 ∧ (nm = initName ∨ nm = mainName) ∧
      r = w4 ++ (semi ++ (w3 ++ (')' :: (w2 ++ ('(' :: (w1 ++ (nm.reverse ++ z))))))) := by
  have hA : r = r.takeWhile isWs ++ r.dropWhile isWs :=
    (List.takeWhile_append_dropWhile isWs r).symm
  rcases afterSemi_cases (r.dropWhile isWs) with ⟨x1, hx1, hsk⟩ | hsk
  · rw [hsk] at h
    obtain ⟨x2, hx2, hpt⟩ := closeParen_shape h
    obtain ⟨w2, w1, nm, z, hw2, hw1, hnm, hx2eq⟩ := tailCallAssemble hpt
    refine ⟨r.takeWhile isWs, [';'], x1.takeWhile isWs, w2, w1, nm, z,
      takeWhile_ws r, Or.inr rfl, takeWhile_ws x1, hw2, hw1, hnm, ?_⟩
    have hx1split : x1 = x1.takeWhile isWs ++ (')' :: x2) := by
      conv_lhs => rw [← List.takeWhile_append_dropWhile isWs x1]
      rw [hx2]
    conv_lhs => rw [hA, hx1, hx1split, hx2eq]
    simp
  · rw [hsk, dropWhile_dropWhile] at h
    obtain ⟨x2, hx2, hpt⟩ := closeParen_shape h
    obtain ⟨w2, w1, nm, z, hw2, hw1, hnm, hx2eq⟩ := tailCallAssemble hpt
    refine ⟨r.takeWhile isWs, [], [], w2, w1, nm, z,
      takeWhile_ws r, Or.inl rfl, (by intro c hc; cases hc), hw2, hw1, hnm, ?_⟩
    conv_lhs => rw [hA, hx2, hx2eq]
    simp

theorem endsWithCall_iff (t : List Char) : endsWithCall t = true ↔ EndsCallShape t := by
  constructor
  · intro h
    unfold endsWithCall at h
    obtain ⟨w4, semi, w3, w2, w1, nm, z, h4, hsemi, h3, h2, h1, hnm, heq⟩ :=
      endsWithCall_fwd_core h
    have ht : t = (w4 ++ (semi ++ (w3 ++ (')' ::
        (w2 ++ ('(' :: (w1 ++ (nm.reverse ++ z)))))))).reverse := by
      rw [← heq, List.reverse_reverse]
    refine ⟨z.reverse, nm, w1.reverse, w2.reverse, w3.reverse, semi, w4.reverse,
      hnm, WsRun_reverse h1, WsRun_reverse h2, WsRun_reverse h3, WsRun_reverse h4,
      hsemi, ?_⟩
    rcases hsemi with rfl | rfl <;>
      (rw [ht]; simp)
  · exact endsWithCall_of_shape

theorem braceAt_of {r2 rest : List Char} (h : r2.dropWhile isWs = '\x7b' :: rest) :
    braceAt r2 = true := by
  unfold braceAt
  rw [h]
  rfl

theorem braceAt_shape {r2 : List Char} (h : braceAt r2 = true) :
    ∃ w4 rest, WsRun w4 ∧ r2 = w4 ++ '\x7b' :: rest := by
  unfold braceAt at h
  cases hd : r2.dropWhile isWs with
  | nil => rw [hd] at h; cases h
  | cons c rest =>
    rw [hd] at h
    by_cases hc : c = '\x7b'
    · subst hc
      refine ⟨r2.takeWhile isWs, rest, takeWhile_ws r2, ?_⟩
      conv_lhs => rw [← List.takeWhile_append_dropWhile isWs r2, hd]
    · exfalso
      revert h
      split
      · rename_i z heq
        injection heq with h1 _
        exact fun _ => hc h1
      · exact fun h => by cases h

theorem closeThen_of {r r2 : List Char} (hd : r.dropWhile isWs = ')' :: r2) :
    closeThen r = braceAt r2 := by
  unfold closeThen
  rw [hd]
  rfl

theorem closeThen_shape {r : List Char} (h : closeThen r = true) :
    ∃ w3 r2, WsRun w3 ∧ r = w3 ++ ')' :: r2 ∧ braceAt r2 = true := by
  unfold closeThen at h
  cases hd : r.dropWhile isWs with
  | nil => rw [hd] at h; cases h
  | cons c r2 =>
    rw [hd] at h
    by_cases hc : c = ')'
    · subst hc
      refine ⟨r.takeWhile isWs, r2, takeWhile_ws r, ?_, h⟩
      conv_lhs => rw [← List.takeWhile_append_dropWhile isWs r, hd]
    · exfalso
      revert h
      split
      · rename_i z heq
        injection heq with h1 _
        exact fun _ => hc h1
      · exact fun h => by cases h

theorem parenPart_of {l r : List Char} (hd : l.dropWhile isWs = '(' :: r) :
    parenPart l = closeThen r := by
  unfold parenPart
  rw [hd]
  rfl

theorem parenPart_shape {l : List Char} (h : parenPart l = true) :
    ∃ w2 w3 w4 rest, WsRun w2 ∧ WsRun w3 ∧ WsRun w4 ∧
      l = w2 ++ '(' :: (w3 ++ ')' :: (w4 ++ '\x7b' :: rest)) := by
  unfold parenPart at h
  cases hd : l.dropWhile isWs with
  | nil => rw [hd] at h; cases h
  | cons c r =>
    rw [hd] at h
    by_cases hc : c = '('
    · subst hc
      obtain ⟨w3, r2, hw3, hr, hb⟩ := closeThen_shape h
      obtain ⟨w4, rest, hw4, hr2⟩ := braceAt_shape hb
      refine ⟨l.takeWhile isWs, w3, w4, rest, takeWhile_ws l, hw3, hw4, ?_⟩
      conv_lhs => rw [← List.takeWhile_append_dropWhile isWs l, hd, hr, hr2]
    · exfalso
      revert h
      split
      · rename_i z heq
        injection heq with h1 _
        exact fun _ => hc h1
      · exact fun h => by cases h

theorem parenPart_complete {w2 w3 w4 rest : List Char} (h2 : WsRun w2)
    (h3 : WsRun w3) (h4 : WsRun w4) :
    parenPart (w2 ++ '(' :: (w3 ++ ')' :: (w4 ++ '\x7b' :: rest))) = true := by
  rw [parenPart_of (by rw [dropWhile_ws_append h2, dropWhile_not_ws_head (by decide)]),
    closeThen_of (by rw [dropWhile_ws_append h3, dropWhile_not_ws_head (by decide)])]
  exact braceAt_of (by rw [dropWhile_ws_append h4, dropWhile_not_ws_head (by decide)])

theorem initName_eq : initName = 'i' :: 'n' :: 'i' :: 't' :: [] := rfl

theorem mainName_eq : mainName = 'm' :: 'a' :: 'i' :: 'n' :: [] := rfl

theorem nameThen_init {z : List Char} (hpp : parenPart z = true) :
    nameThen (initName ++ z) = true := by
  unfold nameThen
  rw [startsWithL_append_self, Bool.true_and,
    show (initName ++ z).drop 4 = z from by
      rw [show (4 : Nat) = initName.length from rfl, List.drop_left],
    hpp, Bool.true_or]

theorem nameThen_main {z : List Char} (hpp : parenPart z = true) :
    nameThen (mainName ++ z) = true := by
  unfold nameThen
  rw [show (mainName ++ z).drop 4 = z from by
      rw [show (4 : Nat) = mainName.length from rfl, List.drop_left]]
  rw [startsWithL_append_self, Bool.true_and, hpp, Bool.or_true]

theorem nameThen_sound {l2 : List Char} (h : nameThen l2 = true) :
    ∃ nm z, (nm = initName ∨ nm = mainName) ∧ l2 = nm ++ z ∧ parenPart z = true := by
  unfold nameThen at h
  rw [Bool.or_eq_true, Bool.and_eq_true, Bool.and_eq_true] at h
  rcases h with ⟨hsw, hpp⟩ | ⟨hsw, hpp⟩
  · obtain ⟨z, hz⟩ := (startsWithL_iff _ _).mp hsw
    subst hz
    rw [show (initName ++ z).drop 4 = z from by
      rw [show (4 : Nat) = initName.length from rfl, List.drop_left]] at hpp
    exact ⟨initName, z, Or.inl rfl, rfl, hpp⟩
  · obtain ⟨z, hz⟩ := (startsWithL_iff _ _).mp hsw
    subst hz
    rw [show (mainName ++ z).drop 4 = z from by
      rw [show (4 : Nat) = mainName.length from rfl, List.drop_left]] at hpp
    exact ⟨mainName, z, Or.inr rfl, rfl, hpp⟩

theorem fnPat_complete {nm l : List Char} (hnm : nm = initName ∨ nm = mainName)
    (h : FnHeadShape nm l) : fnPat l = true := by
  obtain ⟨w1, w2, w3, w4, rest, hw1, hw1ne, hw2, hw3, hw4, hl⟩ := h
  obtain ⟨c, w1', rfl⟩ : ∃ c w1', w1 = c :: w1' := by
    cases w1 with
    | nil => exact absurd rfl hw1ne
    | cons c w1' => exact ⟨c, w1', rfl⟩
  have hcws : isWs c = true := hw1 c (by simp)
  subst hl
  unfold fnPat
  rw [startsWithL_append_self, Bool.true_and,
    show (8 : Nat) = fnKw.length from rfl, List.drop_left, List.cons_append]
  show (isWs c && nameThen ((c :: (w1' ++ (nm ++ (w2 ++ '(' ::
    (w3 ++ ')' :: (w4 ++ '\x7b' :: rest)))))).dropWhile isWs)) = true
  rw [hcws, Bool.true_and, ← List.cons_append,
    dropWhile_ws_append hw1]
  have hnmdrop : (nm ++ (w2 ++ '(' :: (w3 ++ ')' :: (w4 ++ '\x7b' :: rest)))).dropWhile isWs
      = nm ++ (w2 ++ '(' :: (w3 ++ ')' :: (w4 ++ '\x7b' :: rest))) := by
    rcases hnm with rfl | rfl
    · rw [initName_eq]
      simp only [List.cons_append, List.nil_append]
      exact dropWhile_not_ws_head (by decide)
    · rw [mainName_eq]
      simp only [List.cons_append, List.nil_append]
      exact dropWhile_not_ws_head (by decide)
  rw [hnmdrop]
  rcases hnm with rfl | rfl
  · exact nameThen_init (parenPart_complete hw2 hw3 hw4)
  · exact nameThen_main (parenPart_complete hw2 hw3 hw4)

theorem fnPat_sound {l : List Char} (h : fnPat l = true) :
    FnHeadShape initName l ∨ FnHeadShape mainName l := by
  unfold fnPat at h
  rw [Bool.and_eq_true] at h
  obtain ⟨hsw, hm⟩ := h
  obtain ⟨l1, hl1⟩ := (startsWithL_iff _ _).mp hsw
  subst hl1
  rw [show (8 : Nat) = fnKw.length from rfl, List.drop_left] at hm
  cases hl : l1 with
  | nil => rw [hl] at hm; cases hm
  | cons c cs =>
    rw [hl] at hm
    rw [show (match c :: cs with
        | [] => false
        | c :: cs => isWs c && nameThen ((c :: cs).dropWhile isWs))
      = (isWs c && nameThen ((c :: cs).dropWhile isWs)) from rfl,
      Bool.and_eq_true] at hm
    obtain ⟨hcws, hnt⟩ := hm
    obtain ⟨nm, z, hnm, hl2, hpp⟩ := nameThen_sound hnt
    obtain ⟨w2, w3, w4, rest, hw2, hw3, hw4, hz⟩ := parenPart_shape hpp
    have hsplit : c :: cs = (c :: cs).takeWhile isWs ++ (c :: cs).dropWhile isWs :=
      (List.takeWhile_append_dropWhile isWs _).symm
    have hw1ne : (c :: cs).takeWhile isWs ≠ [] := by
      rw [List.takeWhile_cons, if_pos hcws]
      exact List.cons_ne_nil _ _
    have hshape : FnHeadShape nm (fnKw ++ (c :: cs)) := by
      refine ⟨(c :: cs).takeWhile isWs, w2, w3, w4, rest,
        takeWhile_ws _, hw1ne, hw2, hw3, hw4, ?_⟩
      conv_lhs => rw [hsplit, hl2, hz]
    rcases hnm with rfl | rfl
    · exact Or.inl hshape
    · exact Or.inr hshape

theorem junkFSM_false_nil : junkFSM false [] = fnPat [] := rfl

theorem junkFSM_false_cons (c : Char) (cs : List Char) :
    junkFSM false (c :: cs) = (fnPat (c :: cs) ||
      (if isWs c then junkFSM false cs
       else if c = '/' then
         match cs with
         | '/' :: cs2 => junkFSM true cs2
         | _ => false
       else false)) := by
  rw [junkFSM.eq_def]

theorem junkFSM_true_cons (c : Char) (cs : List Char) :
    junkFSM true (c :: cs) =
      (if c = '\n' then junkFSM false cs else junkFSM true cs) := by
  rw [junkFSM.eq_def]

theorem slashMatch_of_ne {d : Char} {cs2 : List Char} (h : d ≠ '/') :
    (match d :: cs2 with
     | '/' :: x => junkFSM true x
     | _ => false) = false := by
  split
  · rename_i x heq; injection heq with h1 _; exact absurd h1 h
  · rfl

theorem junkFSM_of_fnPat {l : List Char} (h : fnPat l = true) :
    junkFSM false l = true := by
  cases l with
  | nil => rw [junkFSM_false_nil]; exact h
  | cons c cs => rw [junkFSM_false_cons, h, Bool.true_or]

theorem commentSkip {s rest : List Char} (hs : ∀ c ∈ s, c ≠ '\n') :
    junkFSM true (s ++ '\n' :: rest) = junkFSM false rest := by
  induction s with
  | nil =>
    rw [List.nil_append, junkFSM_true_cons, if_pos rfl]
  | cons c s' ih =>
    rw [List.cons_append, junkFSM_true_cons, if_neg (hs c (by simp))]
    exact ih (fun x hx => hs x (by simp [hx]))

theorem junkFSM_complete {junk l : List Char} (hj : JunkSeq junk)
    (h : fnPat l = true) : junkFSM false (junk ++ l) = true := by
  induction hj with
  | nil => rw [List.nil_append]; exact junkFSM_of_fnPat h
  | @ws c junk' hc hjj ih =>
    rw [List.cons_append, junkFSM_false_cons, if_pos hc, ih, Bool.or_true]
  | @comment s junk' hs hjj ih =>
    rw [show ('/' :: '/' :: (s ++ '\n' :: junk')) ++ l
        = '/' :: '/' :: ((s ++ '\n' :: junk') ++ l) from by simp,
      show (s ++ '\n' :: junk') ++ l = s ++ '\n' :: (junk' ++ l) from by simp,
      junkFSM_false_cons]
    have hstep : (if isWs '/' then junkFSM false ('/' :: (s ++ '\n' :: (junk' ++ l)))
        else if '/' = '/' then
          match '/' :: (s ++ '\n' :: (junk' ++ l)) with
          | '/' :: cs2 => junkFSM true cs2
          | _ => false
        else false) = junkFSM true (s ++ '\n' :: (junk' ++ l)) := by
      rw [if_neg (by decide), if_pos rfl]
      rfl
    rw [hstep, commentSkip hs, ih, Bool.or_true]

theorem junkFSM_true_sound :
    ∀ x, junkFSM true x = true →
      ∃ s rest, (∀ c ∈ s, c ≠ '\n') ∧ junkFSM false rest = true ∧
        x = s ++ '\n' :: rest := by
  intro x
  induction x with
  | nil => intro h; cases h
  | cons c cs ih =>
    intro h
    rw [junkFSM_true_cons] at h
    by_cases hc : c = '\n'
    · subst hc
      rw [if_pos rfl] at h
      exact ⟨[], cs, by simp, h, rfl⟩
    · rw [if_neg hc] at h
      obtain ⟨s, rest, hs, hr, hx⟩ := ih h
      exact ⟨c :: s, rest, by
        intro y hy
        rcases List.mem_cons.mp hy with rfl | hy2
        · exact hc
        · exact hs y hy2, hr, by rw [hx]; rfl⟩

theorem junkFSM_false_sound :
    ∀ n l0, l0.length ≤ n → junkFSM false l0 = true →
      ∃ junk l, JunkSeq junk ∧ fnPat l = true ∧ l0 = junk ++ l := by
  intro n
  induction n with
  | zero =>
    intro l0 hlen h
    have : l0 = [] := List.length_eq_zero.mp (Nat.le_zero.mp hlen)
    subst this
    exact ⟨[], [], JunkSeq.nil, h, rfl⟩
  | succ n ih =>
    intro l0 hlen h
    cases l0 with
    | nil => exact ⟨[], [], JunkSeq.nil, h, rfl⟩
    | cons c cs =>
      rw [junkFSM_false_cons, Bool.or_eq_true] at h
      rcases h with h | h
      · exact ⟨[], c :: cs, JunkSeq.nil, h, rfl⟩
      · by_cases hws : isWs c = true
        · rw [if_pos hws] at h
          obtain ⟨junk, l, hj, hf, he⟩ := ih cs (by
            simp only [List.length_cons] at hlen; omega) h
          exact ⟨c :: junk, l, JunkSeq.ws hws hj, hf, by rw [he]; rfl⟩
        · rw [if_neg hws] at h
          by_cases hsl : c = '/'
          · subst hsl
            rw [if_pos rfl] at h
            cases cs with
            | nil => cases h
            | cons d cs2 =>
              by_cases hd : d = '/'
              · subst hd
                rw [show (match '/' :: cs2 with
                    | '/' :: x => junkFSM true x
                    | _ => false) = junkFSM true cs2 from rfl] at h
                obtain ⟨s, rest, hs, hr, hx⟩ := junkFSM_true_sound cs2 h
                obtain ⟨junk, l, hj, hf, he⟩ := ih rest (by
                  subst hx
                  simp only [List.length_cons, List.length_append] at hlen ⊢
                  omega) hr
                refine ⟨'/' :: '/' :: (s ++ '\n' :: junk), l,
                  JunkSeq.comment hs hj, hf, ?_⟩
                rw [hx, he]
                simp
              · rw [slashMatch_of_ne hd] at h
                cases h
          · rw [if_neg hsl] at h
            cases h

theorem seekNl_cons (c : Char) (cs : List Char) :
    seekNl (c :: cs) =
      (if c = '\n' then junkFSM false cs || seekNl cs else seekNl cs) := by
  rw [seekNl.eq_def]

theorem seekNl_of {rest : List Char} (a : List Char)
    (h : junkFSM false rest = true) : seekNl (a ++ '\n' :: rest) = true := by
  induction a with
  | nil =>
    rw [List.nil_append, seekNl_cons, if_pos rfl, h, Bool.true_or]
  | cons c a' ih =>
    rw [List.cons_append, seekNl_cons]
    by_cases hc : c = '\n'
    · rw [if_pos hc, ih, Bool.or_true]
    · rw [if_neg hc]
      exact ih

theorem seekNl_sound :
    ∀ l, seekNl l = true →
      ∃ a rest, l = a ++ '\n' :: rest ∧ junkFSM false rest = true := by
  intro l
  induction l with
  | nil => intro h; cases h
  | cons c cs ih =>
    intro h
    rw [seekNl_cons] at h
    by_cases hc : c = '\n'
    · subst hc
      rw [if_pos rfl, Bool.or_eq_true] at h
      rcases h with h | h
      · exact ⟨[], cs, rfl, h⟩
      · obtain ⟨a, rest, he, hr⟩ := ih h
        exact ⟨'\n' :: a, rest, by rw [he]; rfl, hr⟩
    · rw [if_neg hc] at h
      obtain ⟨a, rest, he, hr⟩ := ih h
      exact ⟨c :: a, rest, by rw [he]; rfl, hr⟩

theorem hasInitFunction_iff (t : List Char) :
    hasInitFunction t = true ↔ AnchoredFnDef t := by
  constructor
  · intro h
    unfold hasInitFunction at h
    rw [Bool.or_eq_true] at h
    rcases h with h | h
    · obtain ⟨junk, l, hj, hf, he⟩ := junkFSM_false_sound t.length t (Nat.le_refl _) h
      exact ⟨[], junk, l, Or.inl rfl, hj, fnPat_sound hf, by rw [he]; rfl⟩
    · obtain ⟨a, rest, he, hr⟩ := seekNl_sound t h
      obtain ⟨junk, l, hj, hf, he2⟩ :=
        junkFSM_false_sound rest.length rest (Nat.le_refl _) hr
      refine ⟨a ++ ['\n'], junk, l, Or.inr ⟨a, rfl⟩, hj, fnPat_sound hf, ?_⟩
      rw [he, he2]
      simp
  · intro h
    obtain ⟨pre, junk, l, hpre, hj, hf, he⟩ := h
    have hfp : fnPat l = true := by
      rcases hf with hf | hf
      · exact fnPat_complete (Or.inl rfl) hf
      · exact fnPat_complete (Or.inr rfl) hf
    unfold hasInitFunction
    rw [Bool.or_eq_true]
    rcases hpre with rfl | ⟨p', rfl⟩
    · left
      rw [he, List.nil_append]
      exact junkFSM_complete hj hfp
    · right
      rw [he, show (p' ++ ['\n']) ++ (junk ++ l) = p' ++ '\n' :: (junk ++ l) from by simp]
      exact seekNl_of p' (junkFSM_complete hj hfp)

theorem isAlreadyWrapped_iff (s : List Char) :
    isAlreadyWrapped s = true ↔
      (AnchoredFnDef (jsTrim s) ∧ EndsCallShape (jsTrim s)) := by
  unfold isAlreadyWrapped
  rw [Bool.and_eq_true, hasInitFunction_iff, endsWithCall_iff]

/-- Claim C1, counterexample: a publish attempt where the archive-extraction
command fails.  The reconciler yields the absent result (no thrown fault),
but the scratch extraction directory is still present afterwards — the
cleanup command never ran, contradicting the claim that the scratch
directory is removed on every exit path. -/
theorem c1_counterexample :
    (readFromZip c1FailState).1 = none ∧
    extractDir ∈ (readFromZip c1FailState).2.dirs := by
  decide

/-- Claim C1 (amended): the scratch extraction directory is removed only on
the fully successful path.  Whenever readFromZip returns the absent result —
in particular when the extraction command or the markup read throws — the
scratch directory is present in the final state (cleanup did not run);
whenever it returns a value, the scratch directory is absent.  In both cases
the failure is returned as an absent result, never a thrown fault. -/
theorem c1_zip_cleanup (s : SBState) :
    ((readFromZip s).1 = none → extractDir ∈ (readFromZip s).2.dirs) ∧
    (∀ v, (readFromZip s).1 = some v → extractDir ∉ (readFromZip s).2.dirs) := by
  unfold readFromZip
  simp only [sbExec]
  set d1 := if extractDir ∈ s.dirs then s.dirs else extractDir :: s.dirs with hd1
  have hmem : extractDir ∈ d1 := by
    rw [hd1]
    split
    · assumption
    · exact List.mem_cons_self _ _
  constructor
  · intro h
    split at h
    · next a s2 heq =>
      split at heq
      · injection heq with h1 h2
        rw [← h2]
        exact hmem
      · cases heq
    · next a s2 heq =>
      split at heq
      · cases heq
      · injection heq with h1 h2
        revert h
        rw [← h2]
        simp only [sbReadFile]
        split
        · intro _
          exact hmem
        · intro hcontra
          cases hcontra
  · intro v h
    split at h
    · next a s2 heq => cases h
    · next a s2 heq =>
      split at heq
      · cases heq
      · injection heq with h1 h2
        revert h
        rw [← h2]
        simp only [sbReadFile]
        split
        · intro hcontra; cases hcontra
        · intro _
          simp [List.mem_filter]

/-- Witness for c1_zip_cleanup at concrete states: a failing extraction
leaves the directory present, a successful run leaves it absent. -/
theorem c1_zip_cleanup_witness :
    extractDir ∈ (readFromZip c1FailState).2.dirs ∧
    extractDir ∉ (readFromZip c1OkState).2.dirs :=
  ⟨(c1_zip_cleanup c1FailState).1 (by decide),
   (c1_zip_cleanup c1OkState).2
     { html := some "<div>x</div>", css := "", js := "" } (by decide)⟩

/-- Claim C2: wrapJsForSui is idempotent, and an input already detected as
wrapped is returned unchanged, so double-wrapping never occurs. -/
theorem c2_wrap_idempotent :
    (∀ x, wrapJsForSui (wrapJsForSui x) = wrapJsForSui x) ∧
    (∀ x, isAlreadyWrapped x = true → wrapJsForSui x = x) := by
  constructor
  · intro x
    by_cases h : isAlreadyWrapped x = true
    · have h1 : wrapJsForSui x = x := by
        unfold wrapJsForSui
        rw [if_pos h]
      rw [h1]
      exact h1
    · have h1 : wrapJsForSui x = wrapHeader ++ x ++ wrapFooter := by
        unfold wrapJsForSui
        rw [if_neg h]
      rw [h1]
      unfold wrapJsForSui
      rw [if_pos (isAlreadyWrapped_wrapped x)]
  · intro x h
    unfold wrapJsForSui
    rw [if_pos h]

/-- Witness for c2_wrap_idempotent at concrete inputs. -/
theorem c2_wrap_idempotent_witness :
    wrapJsForSui (wrapJsForSui "a = 1;".data) = wrapJsForSui "a = 1;".data ∧
    wrapJsForSui "function init() \x7b\n\x7d\n\ninit();".data =
      "function init() \x7b\n\x7d\n\ninit();".data :=
  ⟨c2_wrap_idempotent.1 "a = 1;".data,
   c2_wrap_idempotent.2 "function init() \x7b\n\x7d\n\ninit();".data (by decide)⟩

/-- Claim C3, counterexample: isAlreadyWrapped accepts a text that defines
init but ends with a call of main (the two names are never tied together),
and accepts a definition that is not at the start of the trimmed text (the
multiline anchor matches at every line start); the claim's characterization,
rendered as claimDeferred, rejects both inputs. -/
theorem c3_counterexample :
    isAlreadyWrapped "function init() \x7b\n\x7d\nmain();".data = true ∧
    claimDeferred "function init() \x7b\n\x7d\nmain();".data = false ∧
    isAlreadyWrapped "const x = 1;\nfunction init() \x7b\x7d\ninit();".data = true ∧
    claimDeferred "const x = 1;\nfunction init() \x7b\x7d\ninit();".data = false := by
  decide

/-- Claim C3 (amended): isAlreadyWrapped returns true exactly when, on the
trimmed input, (a) at the start of the text or right after some newline a
run of whitespace and comment lines is followed by a top-level definition of
init or main, and (b) the text ends with a call-shaped occurrence of init or
main — possibly the tail of a longer identifier — followed by an optional
semicolon and whitespace.  The two names need not agree; in particular code
that defines init or main but has no trailing call shape is rejected. -/
theorem c3_deferred_characterization (s : List Char) :
    isAlreadyWrapped s = true ↔
      (AnchoredFnDef (jsTrim s) ∧ EndsCallShape (jsTrim s)) :=
  isAlreadyWrapped_iff s

/-- Claim C4: in the source payload built by createGamePage, the explicit
style text is used verbatim as the entire non-font-import part whenever it
is nonempty, and the extracted style is used only when it is empty; the
script is the wrap of the explicit script when nonempty, of the extracted
script otherwise.  The two sources of a kind are never merged. -/
theorem c4_explicit_over_extracted (chatId : List Char) (gf : GameFiles)
    (title : Option (List Char)) :
    (gf.css ≠ [] → (buildSource chatId gf title).styleSource =
      (if (extractFontImports gf.html).isEmpty then gf.css
       else extractFontImports gf.html ++ "\n\n".data ++ gf.css)) ∧
    (gf.css = [] → (buildSource chatId gf title).styleSource =
      (if (extractFontImports gf.html).isEmpty then (extractFromSingleFile gf.html).1
       else extractFontImports gf.html ++ "\n\n".data ++ (extractFromSingleFile gf.html).1)) ∧
    (gf.js ≠ [] → (buildSource chatId gf title).scriptSource = wrapJsForSui gf.js) ∧
    (gf.js = [] → (buildSource chatId gf title).scriptSource =
      wrapJsForSui (extractFromSingleFile gf.html).2) := by
  unfold buildSource
  constructor
  · intro h; simp [h, List.isEmpty_iff]
  constructor
  · intro h; simp [h]
  constructor
  · intro h; simp [h, List.isEmpty_iff]
  · intro h; simp [h]

/-- Witness for c4_explicit_over_extracted with explicit css and js present,
and with both absent. -/
theorem c4_explicit_over_extracted_witness :
    ((buildSource "c".data c4gf1 none).styleSource =
      (if (extractFontImports c4gf1.html).isEmpty then c4gf1.css
       else extractFontImports c4gf1.html ++ "\n\n".data ++ c4gf1.css)) ∧
    ((buildSource "c".data c4gf2 none).scriptSource =
      wrapJsForSui (extractFromSingleFile c4gf2.html).2) :=
  ⟨(c4_explicit_over_extracted "c".data c4gf1 none).1 (by decide),
   (c4_explicit_over_extracted "c".data c4gf2 none).2.2.2 rfl⟩

/-- Claim C5, counterexample: a script block referencing only an external
resource does not contribute nothing — its empty inner text still occupies a
slot in the newline join, so the result gains a leading separator newline
and differs from the extraction of the same document without that block. -/
theorem c5_counterexample :
    (extractFromSingleFile
      "<script src=\"e.js\"></script><script>a</script>".data).2 = "\na".data ∧
    (extractFromSingleFile "<script>a</script>".data).2 = "a".data ∧
    ("\na".data : List Char) ≠ "a".data := by
  decide

/-- Claim C5 (amended): for documents assembled from markup-free runs and
complete style and script blocks, extractFromSingleFile returns, per kind,
the inner texts of that kind's blocks in source order joined with newlines,
where a block with no inline body — such as a script block referencing only
an external resource — contributes an empty entry (hence a separator
newline), not nothing; a document with no markup delimiters at all yields
the empty string for both kinds. -/
theorem c5_extract_blocks :
    (∀ html, noLt html → extractFromSingleFile html = ([], [])) ∧
    (∀ segs : List Seg, (∀ g ∈ segs, g.ok) →
      extractFromSingleFile (renderSegs segs) =
        (joinNL ((segs.filter Seg.isStyle).map Seg.inner),
         joinNL ((segs.filter Seg.isScript).map Seg.inner))) := by
  constructor
  · intro html h
    unfold extractFromSingleFile
    rw [show html = html ++ [] from by simp, findBlocks_skip h, findBlocks_skip h]
    rfl
  · intro segs hok
    exact extractFromSingleFile_render hok

/-- Witness for c5_extract_blocks: a plain run, two style blocks, an
external-only script block and an inline script block; and a markup-free
document. -/
theorem c5_extract_blocks_witness :
    extractFromSingleFile (renderSegs [Seg.plain "A".data, Seg.styleB [] "c1".data,
        Seg.scriptB (' ' :: "src=\"e.js\"".data) [], Seg.scriptB [] "j".data,
        Seg.styleB [] "c2".data]) =
      (joinNL (([Seg.plain "A".data, Seg.styleB [] "c1".data,
        Seg.scriptB (' ' :: "src=\"e.js\"".data) [], Seg.scriptB [] "j".data,
        Seg.styleB [] "c2".data].filter Seg.isStyle).map Seg.inner),
       joinNL (([Seg.plain "A".data, Seg.styleB [] "c1".data,
        Seg.scriptB (' ' :: "src=\"e.js\"".data) [], Seg.scriptB [] "j".data,
        Seg.styleB [] "c2".data].filter Seg.isScript).map Seg.inner)) ∧
    extractFromSingleFile "plain text only".data = ([], []) :=
  ⟨c5_extract_blocks.2 _ (by decide), c5_extract_blocks.1 _ (by decide)⟩

/-- Claim C6, counterexample: an opening style delimiter with no closing
delimiter survives extractBodyContent, so the output can contain the
substring the claim forbids. -/
theorem c6_counterexample :
    hasSub "<style".data
      (extractBodyContent "<body><style>a</style><style</body>".data) = true := by
  decide

/-- Claim C6 (amended): for documents whose body consists of markup-free
runs and complete style and script blocks, the output of extractBodyContent
contains neither the opening style delimiter nor the complete script opening
tag: every complete block is stripped.  Dangling, never-closed delimiters
are outside this guarantee, as the counterexample shows. -/
theorem c6_body_clean (segs : List Seg) (hok : ∀ g ∈ segs, g.ok) :
    hasSub "<style".data
      (extractBodyContent (tagBlock bodyTag [] (renderSegs segs))) = false ∧
    hasSub "<script>".data
      (extractBodyContent (tagBlock bodyTag [] (renderSegs segs))) = false := by
  rw [extractBodyContent_render hok]
  have hplain := noLt_renderSegs_plains hok
  have htrim : noLt (jsTrim (renderSegs ((segs.filter (fun g => !g.isStyle)).filter
      (fun g => !g.isScript)))) :=
    fun c hc => hplain c (mem_jsTrim hc)
  constructor
  · exact @hasSub_false_of_noLt "style".data _ htrim
  · exact @hasSub_false_of_noLt "script>".data _ htrim

/-- Witness for c6_body_clean on a concrete document with one block of each
kind and surrounding plain text. -/
theorem c6_body_clean_witness :
    hasSub "<style".data (extractBodyContent (tagBlock bodyTag []
      (renderSegs [Seg.plain "Game Content".data, Seg.styleB [] ".h".data,
        Seg.scriptB [] "go();".data]))) = false ∧
    hasSub "<script>".data (extractBodyContent (tagBlock bodyTag []
      (renderSegs [Seg.plain "Game Content".data, Seg.styleB [] ".h".data,
        Seg.scriptB [] "go();".data]))) = false :=
  c6_body_clean _ (by decide)

set_option maxRecDepth 10000 in
/-- Claim C7: font-import resolution searches only the head block's inner
text and returns the empty string when no head is found; every captured
target contains the web-font provider host pattern, so links to other hosts
contribute nothing; and on a head with two provider links and one other
stylesheet link the captured targets are exactly the two provider targets in
order of appearance. -/
theorem c7_font_imports :
    (∀ html, findFirstContent headTag html = none → extractFontImports html = []) ∧
    (∀ html, ∀ g ∈ fontHrefs html, hasSubCI hostPat g = true) ∧
    fontHrefs ("<head>".data ++
        "<link href=\"https://fonts.googleapis.com/css2?family=X\">".data ++
        "<link href=\"https://other.example.com/a.css\">".data ++
        "<link href=\"http://fonts.googleapis.com/css?family=A\">".data ++
        "</head>".data) =
      ["https://fonts.googleapis.com/css2?family=X".data,
       "http://fonts.googleapis.com/css?family=A".data] := by
  refine ⟨?_, fontHrefs_host, by decide⟩
  intro html h
  unfold extractFontImports
  rw [h]

/-- Witness for c7_font_imports: a document without a head yields nothing,
and a captured target of a concrete document contains the host pattern. -/
theorem c7_font_imports_witness :
    extractFontImports "<div>no head here</div>".data = [] ∧
    hasSubCI hostPat "https://fonts.googleapis.com/css2?family=X".data = true :=
  ⟨c7_font_imports.1 "<div>no head here</div>".data (by decide),
   c7_font_imports.2.1 "<head><link href=\"https://fonts.googleapis.com/css2?family=X\"></head>".data
     "https://fonts.googleapis.com/css2?family=X".data (by decide)⟩

/-- Claim C8: when the page-storage save call fails, createGamePage returns
a non-succeeded result that carries the collaborator's message verbatim; the
failure is never propagated as an exception (the embedding is a total
function into PageResult). -/
theorem c8_save_failure_reported (msg : List Char)
    (save : List Char → List Char → List Char → SuiPageSource → Except (List Char) Unit)
    (chatId : List Char) (gameFiles : GameFiles) (title : Option (List Char))
    (hfail : save "web".data "default".data (pageRouteOf chatId)
      (buildSource chatId gameFiles title) = Except.error msg) :
    createGamePage save chatId gameFiles title =
      { success := false, route := pageRouteOf chatId, url := pageRouteOf chatId,
        error := some msg } := by
  unfold createGamePage
  simp only [hfail]

/-- Witness for c8_save_failure_reported with a collaborator that always
fails with a fixed message. -/
theorem c8_save_failure_reported_witness :
    createGamePage (fun _ _ _ _ => Except.error "boom".data) "c1".data c8gf none =
      { success := false, route := pageRouteOf "c1".data, url := pageRouteOf "c1".data,
        error := some "boom".data } :=
  c8_save_failure_reported "boom".data _ "c1".data c8gf none rfl

/-- Claim C9, counterexample: when the archive contains an empty game.html,
the archive path returns a GameFiles value with empty markup while the
individual-file path returns the absent result, so the two paths disagree on
identical file contents. -/
theorem c9_counterexample :
    (readFromZip (zipOnlyState "" "c" "j" true true)).1 =
      some { html := some "", css := "c", js := "j" } ∧
    readIndividualFiles (indOnlyState "" "c" "j" true true) = none := by
  decide

/-- Claim C9 (amended): when the archive extraction succeeds and the archive
holds a game.html with nonempty content, the archive path and the
individual-file path agree on identical contents — including when the css or
js file is absent, in which case both degrade to the empty string — and the
end-to-end readGameFiles results agree as well; the common result carries
the three contents.  When game.html is empty the two paths disagree, as the
counterexample shows. -/
theorem c9_zip_matches_individual (h c j : String) (hh : h ≠ "")
    (hasCss hasJs : Bool) :
    (readFromZip (zipOnlyState h c j hasCss hasJs)).1 =
      readIndividualFiles (indOnlyState h c j hasCss hasJs) ∧
    (readGameFiles (zipOnlyState h c j hasCss hasJs)).1 =
      (readGameFiles (indOnlyState h c j hasCss hasJs)).1 ∧
    (readFromZip (zipOnlyState h c j hasCss hasJs)).1 =
      some { html := some h, css := if hasCss then c else "",
             js := if hasJs then j else "" } := by
  cases hasCss <;> cases hasJs <;>
    simp +decide [zipOnlyState, indOnlyState, readFromZip, readIndividualFiles,
      readGameFiles, fileExists, sbExec, sbReadFile, lookupFile, safeReadFile,
      extractDir, List.find?, hh]

/-- Witness for c9_zip_matches_individual at concrete contents with the css
file present and the js file absent. -/
theorem c9_zip_matches_individual_witness :
    (readFromZip (zipOnlyState "<div>x</div>" "c" "j" true false)).1 =
      readIndividualFiles (indOnlyState "<div>x</div>" "c" "j" true false) ∧
    (readGameFiles (zipOnlyState "<div>x</div>" "c" "j" true false)).1 =
      (readGameFiles (indOnlyState "<div>x</div>" "c" "j" true false)).1 ∧
    (readFromZip (zipOnlyState "<div>x</div>" "c" "j" true false)).1 =
      some { html := some "<div>x</div>", css := if true then "c" else "",
             js := if false then "j" else "" } :=
  c9_zip_matches_individual "<div>x</div>" "c" "j" (by decide) true false

/-- Claim C10: with no archive present, a game.html that exists but reads
back empty makes readGameFiles return the quiet absent outcome, leaving the
state untouched — the same outcome as when no artifact files exist at
all — so a publish is never attempted from an empty markup file. -/
theorem c10_empty_markup_noop (s s2 : SBState)
    (hz : sbReadFile s "game.zip" = Except.ok none)
    (hh : sbReadFile s "game.html" = Except.ok (some ""))
    (hz2 : sbReadFile s2 "game.zip" = Except.ok none)
    (hh2 : sbReadFile s2 "game.html" = Except.ok none) :
    readGameFiles s = (none, s) ∧ readGameFiles s2 = (none, s2) := by
  constructor
  · unfold readGameFiles fileExists readIndividualFiles
    rw [hz, hh]
    simp
  · unfold readGameFiles fileExists
    rw [hz2, hh2]
    simp

/-- Witness for c10_empty_markup_noop: a sandbox with an empty game.html and
one with no files at all. -/
theorem c10_empty_markup_noop_witness :
    readGameFiles c10EmptyState = (none, c10EmptyState) ∧
    readGameFiles c10BareState = (none, c10BareState) :=
  c10_empty_markup_noop c10EmptyState c10BareState rfl rfl rfl rfl

end YaoCraft
